import Mathlib

/-!
Verification development for the tldfetch visual API client.

The embedding below translates the path-resolution engine and store of
`src/store/useCanvasStore.ts`, the request assembly of
`src/components/Blocks/MethodBlock.tsx`, and the data model of
`src/types.ts` into Lean.  JavaScript's recursive backward walks are
modelled with an explicit fuel argument (a fuel of `edges.length + 2` is
proved sufficient below, which is the termination argument); the mutable
`visited` set and `path` array are threaded as explicit state; JS
`Record<string, string>` objects are modelled as association lists with
insert-or-overwrite updates; the nondeterministic inputs `nanoid()`,
`Date.now()` and `Math.random()` positions are taken as parameters
(node positions are dropped altogether: no resolution code reads them).
-/

/-- `HttpMethod` from src/types.ts. -/
inductive HttpMethod where
  | GET | POST | PUT | DELETE | PATCH
deriving DecidableEq, Repr

/-- `BlockType` from src/types.ts. -/
inductive BlockType where
  | baseUrl | resource | method | request
deriving DecidableEq, Repr

/-- `BodyField` from src/types.ts. -/
structure BodyField where
  key : String
  value : String
deriving DecidableEq, Repr

/-- `HeaderField` from src/types.ts. -/
structure HeaderField where
  key : String
  value : String
deriving DecidableEq, Repr

/-- `BlockData` from src/types.ts (the optional `isParam`/`paramValue`
fields are never read by the store or the send path and are omitted). -/
structure BlockData where
  type : BlockType
  value : String
  method : Option HttpMethod := none
  bodyFields : Option (List BodyField) := none
  headers : Option (List HeaderField) := none
  bearerToken : Option String := none
deriving DecidableEq, Repr

/-- `ApiBlock = Node<BlockData>` from src/types.ts; the reactflow node
position is presentational only and is not modelled. -/
structure ApiBlock where
  id : String
  data : BlockData
deriving DecidableEq, Repr

/-- reactflow `Edge` as used by the store: an id plus source/target node ids. -/
structure Edge where
  id : String
  source : String
  target : String
deriving DecidableEq, Repr

/-- The mutable recursion state of the backward walks in
src/store/useCanvasStore.ts: the `visitedNodes` set (as a list) and the
`path` / `pathNodeIds` array (front of the list = front of the array). -/
structure TraceSt where
  visited : List String
  path : List String
deriving DecidableEq, Repr

/-- The `for (const edge of incomingEdges)` loop shape shared by both
`traceBackwards` closures in src/store/useCanvasStore.ts: try each edge's
source in order with the walk `tb`, returning on the first success and
threading the mutated state through failures. -/
def tryEdges (tb : String → TraceSt → Option (Bool × TraceSt)) :
    List Edge → TraceSt → Option (Bool × TraceSt)
  | [], st => some (false, st)
  | e :: rest, st =>
    match tb e.source st with
    | none => none
    | some (true, st1) => some (true, st1)
    | some (false, st1) => tryEdges tb rest st1

/-- `traceBackwards` inside `computeActivePathNodes`
(src/store/useCanvasStore.ts:18-41), with the JS call stack made explicit
as fuel.  `none` means the fuel ran out (proved unreachable for fuel
`edges.length + 2` in `traceBack_fuel_sufficient`). -/
def traceBack (nodes : List ApiBlock) (edges : List Edge) :
    Nat → String → TraceSt → Option (Bool × TraceSt)
  | 0, _, _ => none
  | fuel+1, nodeId, st =>
    if nodeId ∈ st.visited then some (false, st)
    else
      match nodes.find? (fun n => n.id == nodeId) with
      | none => some (false, ⟨nodeId :: st.visited, st.path⟩)
      | some node =>
        if node.data.type = BlockType.baseUrl then
          some (true, ⟨nodeId :: st.visited, nodeId :: st.path⟩)
        else
          match tryEdges (fun s st' => traceBack nodes edges fuel s st')
              (edges.filter (fun e => e.target == nodeId))
              ⟨nodeId :: st.visited, nodeId :: st.path⟩ with
          | none => none
          | some (true, st3) => some (true, st3)
          | some (false, st3) => some (false, ⟨st3.visited, st3.path.tail⟩)

/-- `computeActivePathNodes` (src/store/useCanvasStore.ts:8-45).  The fuel
`edges.length + 2` is sufficient (`traceBack_fuel_sufficient`), so the
`none` fallback is dead code. -/
def computeActivePathNodes (activePathId : Option String)
    (nodes : List ApiBlock) (edges : List Edge) : List String :=
  match activePathId with
  | none => []
  | some tid =>
    match traceBack nodes edges (edges.length + 2) tid ⟨[], []⟩ with
    | some (_, st) => st.path
    | none => []


/-- JS `\w`: ASCII alphanumerics and underscore. -/
def wordChar (c : Char) : Bool :=
  (('a' ≤ c && c ≤ 'z') || ('A' ≤ c && c ≤ 'Z') || ('0' ≤ c && c ≤ '9') || c = '_')

/-- JS line terminators, which `.` in a regex without the `s` flag does not match. -/
def lineTerm (c : Char) : Bool :=
  c = '\n' || c = '\r' || c = Char.ofNat 0x2028 || c = Char.ofNat 0x2029

/-- After an opening `{`, does `/\{(.+)\}/` find a closing `}` for it?
`k` counts the content characters consumed so far: the capture `.+` needs
at least one, and `.` cannot cross a line terminator. -/
def closeSearch : List Char → Nat → Bool
  | [], _ => false
  | c :: rest, k =>
    if lineTerm c then false
    else if c = '}' && 1 ≤ k then true
    else closeSearch rest (k + 1)

/-- The `isParam` test `/\{(.+)\}/.test(value)` of getComputedUrl
(src/store/useCanvasStore.ts:380) and ResourceBlock. -/
def isParamTest : List Char → Bool
  | [] => false
  | '{' :: rest => closeSearch rest 0 || isParamTest rest
  | _ :: rest => isParamTest rest

/-- Dropping a prefix never lengthens a list (termination helper). -/
theorem dropWhile_length_le {α : Type} (p : α → Bool) (l : List α) :
    (List.dropWhile p l).length ≤ l.length := by
  induction l with
  | nil => simp [List.dropWhile]
  | cons a l ih =>
    rw [List.dropWhile]
    cases h : p a <;> simp [h]
    omega

/-- JS object read `variables[key]`: first binding for the key, if any. -/
def lookupVar (vars : List (String × String)) (key : String) : Option String :=
  (vars.find? (fun p => p.1 == key)).map (fun p => p.2)

/-- The replace `/\{(\w+)\}/g` with `variables[key] || placeholder`
(src/store/useCanvasStore.ts:381-383): scan left to right; at each `{`
take the maximal run of word characters, and if it is non-empty and
followed by `}` replace the whole placeholder by the binding when that is
a truthy (non-empty) string, otherwise re-emit the placeholder; scanning
resumes after the `}` and replacements are not rescanned. -/
def substWord (vars : List (String × String)) : List Char → List Char
  | [] => []
  | '{' :: rest =>
    match h : rest.dropWhile wordChar with
    | '}' :: r3 =>
      if rest.takeWhile wordChar = [] then '{' :: substWord vars rest
      else
        (match lookupVar vars (String.mk (rest.takeWhile wordChar)) with
         | some v =>
           if v = "" then '{' :: (rest.takeWhile wordChar ++ ['}'])
           else v.data
         | none => '{' :: (rest.takeWhile wordChar ++ ['}'])) ++ substWord vars r3
    | _ => '{' :: substWord vars rest
  | c :: rest => c :: substWord vars rest
termination_by l => l.length
decreasing_by
  all_goals simp_wf
  all_goals first
    | omega
    | · have hlen : (rest.dropWhile wordChar).length ≤ rest.length :=
          dropWhile_length_le wordChar rest
        rw [h] at hlen
        simp only [List.length_cons] at hlen
        omega

/-- The parameter-substitution step applied to a resource node's value in
getComputedUrl (src/store/useCanvasStore.ts:377-387): the replace runs
only when the `isParam` test succeeds. -/
def substituteValue (vars : List (String × String)) (value : String) : String :=
  if isParamTest value.data then String.mk (substWord vars value.data) else value

/-- `url.replace(/([^:]\/)\/+/g, '$1')` (src/store/useCanvasStore.ts:405):
leftmost, non-overlapping matches of a non-colon character, a slash, and a
greedy run of one or more further slashes, each replaced by the character
and the single slash. -/
def collapseSlashes : List Char → List Char
  | c :: '/' :: '/' :: rest =>
    if c = ':' then c :: collapseSlashes ('/' :: '/' :: rest)
    else c :: '/' :: collapseSlashes (rest.dropWhile (fun d => d = '/'))
  | c :: rest => c :: collapseSlashes rest
  | [] => []
termination_by l => l.length
decreasing_by
  all_goals simp_wf
  all_goals first
    | omega
    | · have hlen : (rest.dropWhile (fun d => d = '/')).length ≤ rest.length :=
          dropWhile_length_le _ rest
        omega

/-- `path.join('/')` followed by the slash collapse: the final line of
getComputedUrl (src/store/useCanvasStore.ts:405). -/
def composeUrl (path : List String) : String :=
  String.mk (collapseSlashes (String.intercalate "/" path).data)

/-- The `traceBackwards` closure inside `getComputedUrl`
(src/store/useCanvasStore.ts:366-397).  Unlike the one in
`computeActivePathNodes` it pushes segment *values* (base URL value, or
substituted resource value), and it does **not** undo the push when all
incoming edges of a node fail. -/
def traceBackU (nodes : List ApiBlock) (edges : List Edge)
    (vars : List (String × String)) :
    Nat → String → TraceSt → Option (Bool × TraceSt)
  | 0, _, _ => none
  | fuel+1, nodeId, st =>
    if nodeId ∈ st.visited then some (false, st)
    else
      match nodes.find? (fun n => n.id == nodeId) with
      | none => some (false, ⟨nodeId :: st.visited, st.path⟩)
      | some node =>
        if node.data.type = BlockType.baseUrl then
          some (true, ⟨nodeId :: st.visited, node.data.value :: st.path⟩)
        else
          tryEdges (fun s st' => traceBackU nodes edges vars fuel s st')
            (edges.filter (fun e => e.target == nodeId))
            ⟨nodeId :: st.visited,
             if node.data.type = BlockType.resource then
               substituteValue vars node.data.value :: st.path
             else st.path⟩

/-- `RequestState` from src/types.ts. -/
structure RequestState where
  url : String
  method : HttpMethod
  headers : List (String × String)
  body : String
deriving DecidableEq, Repr

/-- `ResponseState` from src/types.ts; the `data: any` payload is
abstracted as its serialized form. -/
structure ResponseState where
  status : Int
  statusText : String
  data : String
  headers : List (String × String)
  time : Int
  size : Nat
deriving DecidableEq, Repr

/-- `HistoryItem` from src/types.ts (`ResponseState` plus identity). -/
structure HistoryItem where
  resp : ResponseState
  id : String
  url : String
  method : HttpMethod
  timestamp : Nat
deriving DecidableEq, Repr

/-- `RequestBodyHistoryItem` from src/types.ts. -/
structure RequestBodyHistoryItem where
  id : String
  method : HttpMethod
  url : String
  bodyFields : List BodyField
  timestamp : Nat
deriving DecidableEq, Repr

/-- `CanvasState` from src/types.ts: the state slice of the store. -/
structure Store where
  nodes : List ApiBlock
  edges : List Edge
  activePathId : Option String
  activePathNodes : List String
  request : Option RequestState
  response : Option ResponseState
  history : List HistoryItem
  bodyHistory : List RequestBodyHistoryItem
  vars : List (String × String)
deriving DecidableEq, Repr

/-- `getComputedUrl` (src/store/useCanvasStore.ts:354-406). -/
def getComputedUrl (s : Store) : Option String :=
  match s.activePathId with
  | none => none
  | some tid =>
    match s.nodes.find? (fun n => n.id == tid) with
    | none => none
    | some _ =>
      match traceBackU s.nodes s.edges s.vars (s.edges.length + 2) tid ⟨[], []⟩ with
      | some (found, st) =>
        if found = false ∨ st.path = [] then none
        else some (composeUrl st.path)
      | none => none

/-- `createDefaultState` (src/store/useCanvasStore.ts:84-161). -/
def createDefaultState : Store where
  nodes :=
    [ ⟨"default-base-url", ⟨BlockType.baseUrl, "http://localhost:3000", none, none, none, none⟩⟩
    , ⟨"default-health-resource", ⟨BlockType.resource, "health", none, none, none, none⟩⟩
    , ⟨"default-health-method", ⟨BlockType.method, "", some HttpMethod.GET, none, none, none⟩⟩
    , ⟨"default-auth-resource", ⟨BlockType.resource, "auth", none, none, none, none⟩⟩
    , ⟨"default-login-resource", ⟨BlockType.resource, "login", none, none, none, none⟩⟩
    , ⟨"default-login-method",
       ⟨BlockType.method, "", some HttpMethod.POST,
        some [⟨"email", ""⟩, ⟨"password", ""⟩], none, none⟩⟩ ]
  edges :=
    [ ⟨"edge-base-health", "default-base-url", "default-health-resource"⟩
    , ⟨"edge-health-get", "default-health-resource", "default-health-method"⟩
    , ⟨"edge-base-auth", "default-base-url", "default-auth-resource"⟩
    , ⟨"edge-auth-login", "default-auth-resource", "default-login-resource"⟩
    , ⟨"edge-login-post", "default-login-resource", "default-login-method"⟩ ]
  activePathId := none
  activePathNodes := []
  request := none
  response := none
  history := []
  bodyHistory := []
  vars := []

/-- JS object write `obj[key] = value` / spread `{ ...obj, [key]: value }`
on a string-keyed record: overwrite the existing binding in place, or
append a new one. -/
def recordSet (obj : List (String × String)) (k v : String) : List (String × String) :=
  if obj.any (fun p => p.1 == k) then
    obj.map (fun p => if p.1 == k then (k, v) else p)
  else obj ++ [(k, v)]

/-- `addNode` (src/store/useCanvasStore.ts:191-204); the `nanoid()` id and
the random position are external inputs, the id is a parameter here. -/
def addNode (newId : String) (type : BlockType) (value : String)
    (method : Option HttpMethod) (s : Store) : Store :=
  { s with nodes := s.nodes ++ [⟨newId, ⟨type, value, method, none, none, none⟩⟩] }

/-- `onNodesChange` (src/store/useCanvasStore.ts:206-220): reactflow's
`applyNodeChanges` is an external collaborator, so the operation is
parametrized by the node list it produces; the store then recomputes the
projection from that list. -/
def onNodesChange (newNodes : List ApiBlock) (s : Store) : Store :=
  { s with
    nodes := newNodes
    activePathNodes := computeActivePathNodes s.activePathId newNodes s.edges }

/-- `onEdgesChange` (src/store/useCanvasStore.ts:222-236): parametrized by
the edge list reactflow's `applyEdgeChanges` produces. -/
def onEdgesChange (newEdges : List Edge) (s : Store) : Store :=
  { s with
    edges := newEdges
    activePathNodes := computeActivePathNodes s.activePathId s.nodes newEdges }

/-- `onConnect` (src/store/useCanvasStore.ts:238-252): parametrized by the
edge list reactflow's `addEdge` produces from the connection. -/
def onConnect (newEdges : List Edge) (s : Store) : Store :=
  { s with
    edges := newEdges
    activePathNodes := computeActivePathNodes s.activePathId s.nodes newEdges }

/-- `updateNodeValue` (src/store/useCanvasStore.ts:254-263). -/
def updateNodeValue (id value : String) (s : Store) : Store :=
  { s with
    nodes := s.nodes.map (fun node =>
      if node.id = id then { node with data := { node.data with value := value } } else node) }

/-- `updateNodeBodyFields` (src/store/useCanvasStore.ts:265-274). -/
def updateNodeBodyFields (id : String) (bodyFields : List BodyField) (s : Store) : Store :=
  { s with
    nodes := s.nodes.map (fun node =>
      if node.id = id then { node with data := { node.data with bodyFields := some bodyFields } }
      else node) }

/-- `updateNodeHeaders` (src/store/useCanvasStore.ts:276-285). -/
def updateNodeHeaders (id : String) (headers : List HeaderField) (s : Store) : Store :=
  { s with
    nodes := s.nodes.map (fun node =>
      if node.id = id then { node with data := { node.data with headers := some headers } }
      else node) }

/-- `ensureRequestNode` (src/store/useCanvasStore.ts:287-326); the two
`nanoid()` ids are parameters (position arithmetic is dropped with the
positions). -/
def ensureRequestNode (freshNodeId freshEdgeId : String) (methodNodeId : String)
    (s : Store) : Store :=
  match s.edges.find? (fun e =>
      e.source == methodNodeId &&
      (s.nodes.find? (fun n => n.id == e.target && n.data.type == BlockType.request)).isSome) with
  | some _ => s
  | none =>
    match s.nodes.find? (fun n => n.id == methodNodeId) with
    | none => s
    | some methodNode =>
      if methodNode.data.type ≠ BlockType.method then s
      else
        { s with
          nodes := s.nodes ++
            [⟨freshNodeId,
              ⟨BlockType.request, "", none, none,
               some [⟨"Content-Type", "application/json"⟩], none⟩⟩]
          edges := s.edges ++ [⟨freshEdgeId, methodNodeId, freshNodeId⟩] }

/-- `setActivePath` (src/store/useCanvasStore.ts:328-342). -/
def setActivePath (nodeId : Option String) (s : Store) : Store :=
  { s with
    activePathId := nodeId
    activePathNodes := computeActivePathNodes nodeId s.nodes s.edges }

/-- `setRequest` (src/store/useCanvasStore.ts:408-411). -/
def setRequest (r : RequestState) (s : Store) : Store :=
  { s with request := some r }

/-- `setResponse` (src/store/useCanvasStore.ts:413-434): always stores the
response; when the optional `url` and `method` are both truthy (for a
string: present and non-empty) it also prepends a history item and keeps
the newest 10.  The `nanoid()` id and `Date.now()` timestamp are
parameters. -/
def setResponse (response : ResponseState) (url : Option String)
    (method : Option HttpMethod) (newId : String) (ts : Nat) (s : Store) : Store :=
  let s1 := { s with response := some response }
  match url, method with
  | some u, some m =>
    if u = "" then s1
    else { s1 with history := (List.take 10 (⟨response, newId, u, m, ts⟩ :: s.history)) }
  | _, _ => s1

/-- `clearResponse` (src/store/useCanvasStore.ts:436-439). -/
def clearResponse (s : Store) : Store :=
  { s with response := none }

/-- `clearHistory` (src/store/useCanvasStore.ts:441-444). -/
def clearHistory (s : Store) : Store :=
  { s with history := [] }

/-- `removeHistoryItem` (src/store/useCanvasStore.ts:446-452). -/
def removeHistoryItem (id : String) (s : Store) : Store :=
  { s with history := s.history.filter (fun item => ¬ (item.id == id)) }

/-- `addBodyHistory` (src/store/useCanvasStore.ts:454-473): no-op on an
empty field list, otherwise prepend (a deep clone of) the fields and keep
the newest 50 items. -/
def addBodyHistory (newId : String) (ts : Nat) (method : HttpMethod) (url : String)
    (bodyFields : List BodyField) (s : Store) : Store :=
  if bodyFields.length = 0 then s
  else
    { s with
      bodyHistory :=
        List.take 50 (⟨newId, method, url, bodyFields.map (fun f => ⟨f.key, f.value⟩), ts⟩ ::
          s.bodyHistory) }

/-- `getBodyHistoryForEndpoint` (src/store/useCanvasStore.ts:475-480). -/
def getBodyHistoryForEndpoint (method : HttpMethod) (url : String) (s : Store) :
    List RequestBodyHistoryItem :=
  s.bodyHistory.filter (fun item => item.method == method && item.url == url)

/-- `removeBodyHistoryItem` (src/store/useCanvasStore.ts:482-488). -/
def removeBodyHistoryItem (id : String) (s : Store) : Store :=
  { s with bodyHistory := s.bodyHistory.filter (fun item => ¬ (item.id == id)) }

/-- `setVariable` (src/store/useCanvasStore.ts:490-496). -/
def setVariable (k v : String) (s : Store) : Store :=
  { s with vars := recordSet s.vars k v }

/-- `resetToDefault` (src/store/useCanvasStore.ts:498-503). -/
def resetToDefault (_s : Store) : Store :=
  createDefaultState

/-- `hasBody` (src/components/Blocks/MethodBlock.tsx:43):
`['POST', 'PUT', 'PATCH'].includes(method)`. -/
def hasBody (method : HttpMethod) : Bool :=
  method ∈ [HttpMethod.POST, HttpMethod.PUT, HttpMethod.PATCH]

/-- The header fold of `handleSend` (src/components/Blocks/MethodBlock.tsx:113-121):
pairs with an empty key or an empty value are dropped; then a configured
bearer token unconditionally sets the `Authorization` header. -/
def sendHeaders (headers : List HeaderField) (bearerToken : String) :
    List (String × String) :=
  let headersObj := headers.foldl
    (fun acc f => if f.key ≠ "" ∧ f.value ≠ "" then recordSet acc f.key f.value else acc) []
  if bearerToken ≠ "" then
    recordSet headersObj "Authorization" ("Bearer " ++ bearerToken)
  else headersObj

/-- The body fold of `handleSend` (src/components/Blocks/MethodBlock.tsx:130-135):
fields with an empty key are dropped, fields with an empty value are kept. -/
def sendBodyObj (bodyFields : List BodyField) : List (String × String) :=
  bodyFields.foldl (fun acc f => if f.key ≠ "" then recordSet acc f.key f.value else acc) []

/-- The axios `config` object built by `handleSend`
(src/components/Blocks/MethodBlock.tsx:123-136). -/
structure AxiosConfig where
  method : HttpMethod
  url : String
  headers : List (String × String)
  data : Option (List (String × String))
deriving DecidableEq, Repr

/-- `handleSend`'s request assembly (src/components/Blocks/MethodBlock.tsx:104-136):
the body is attached exactly when `hasBody && bodyFields.length > 0`. -/
def sendConfig (method : HttpMethod) (url : String) (headers : List HeaderField)
    (bearerToken : String) (bodyFields : List BodyField) : AxiosConfig where
  method := method
  url := url
  headers := sendHeaders headers bearerToken
  data := if hasBody method ∧ bodyFields.length > 0 then some (sendBodyObj bodyFields) else none

/-- One user-triggered store mutation, with all external nondeterminism
(`nanoid()` ids, `Date.now()` timestamps, reactflow's change application)
supplied as data. -/
inductive StoreOp where
  | addNode (newId : String) (type : BlockType) (value : String) (method : Option HttpMethod)
  | onNodesChange (newNodes : List ApiBlock)
  | onEdgesChange (newEdges : List Edge)
  | onConnect (newEdges : List Edge)
  | updateNodeValue (id value : String)
  | updateNodeBodyFields (id : String) (bodyFields : List BodyField)
  | updateNodeHeaders (id : String) (headers : List HeaderField)
  | ensureRequestNode (freshNodeId freshEdgeId methodNodeId : String)
  | setActivePath (nodeId : Option String)
  | setRequest (r : RequestState)
  | setResponse (resp : ResponseState) (url : Option String) (method : Option HttpMethod)
      (newId : String) (ts : Nat)
  | clearResponse
  | clearHistory
  | removeHistoryItem (id : String)
  | addBodyHistory (newId : String) (ts : Nat) (method : HttpMethod) (url : String)
      (bodyFields : List BodyField)
  | removeBodyHistoryItem (id : String)
  | setVariable (k v : String)
  | resetToDefault

/-- Apply one store operation. -/
def applyOp (s : Store) : StoreOp → Store
  | StoreOp.addNode newId type value method => addNode newId type value method s
  | StoreOp.onNodesChange newNodes => onNodesChange newNodes s
  | StoreOp.onEdgesChange newEdges => onEdgesChange newEdges s
  | StoreOp.onConnect newEdges => onConnect newEdges s
  | StoreOp.updateNodeValue id value => updateNodeValue id value s
  | StoreOp.updateNodeBodyFields id bodyFields => updateNodeBodyFields id bodyFields s
  | StoreOp.updateNodeHeaders id headers => updateNodeHeaders id headers s
  | StoreOp.ensureRequestNode a b c => ensureRequestNode a b c s
  | StoreOp.setActivePath nodeId => setActivePath nodeId s
  | StoreOp.setRequest r => setRequest r s
  | StoreOp.setResponse resp url method newId ts => setResponse resp url method newId ts s
  | StoreOp.clearResponse => clearResponse s
  | StoreOp.clearHistory => clearHistory s
  | StoreOp.removeHistoryItem id => removeHistoryItem id s
  | StoreOp.addBodyHistory newId ts method url bodyFields =>
      addBodyHistory newId ts method url bodyFields s
  | StoreOp.removeBodyHistoryItem id => removeBodyHistoryItem id s
  | StoreOp.setVariable k v => setVariable k v s
  | StoreOp.resetToDefault => resetToDefault s

/-! ### Analysis-side definitions -/

/-- The replacement text the replace callback produces for a matched
`{word}`: the bound value when truthy, else the literal placeholder. -/
def paramReplacement (vars : List (String × String)) (w : List Char) : List Char :=
  match lookupVar vars (String.mk w) with
  | some v => if v = "" then '{' :: (w ++ ['}']) else v.data
  | none => '{' :: (w ++ ['}'])

/-- Does the list start with two slashes (the suffix shape the collapse
regex needs after its leading `[^:]` character)? -/
def startsDS : List Char → Bool
  | b :: c :: _ => b == '/' && c == '/'
  | _ => false

/-- A *bad run*: somewhere in the list, two consecutive slashes preceded
by a character other than `:` — exactly a place where the collapse regex
`([^:]\/)\/+` can match. -/
def hasBadRun : List Char → Bool
  | a :: rest => (!(a == ':') && startsDS rest) || hasBadRun rest
  | [] => false

/-- A store whose base URL is protocol-relative: the composed URL starts
with a double slash that is not preceded by any character. -/
def protoRelStore : Store :=
  { nodes :=
      [ ⟨"b", ⟨BlockType.baseUrl, "//a", none, none, none, none⟩⟩
      , ⟨"r", ⟨BlockType.resource, "b", none, none, none, none⟩⟩
      , ⟨"t", ⟨BlockType.method, "", some HttpMethod.GET, none, none, none⟩⟩ ]
    edges := [ ⟨"e1", "b", "r"⟩, ⟨"e2", "r", "t"⟩ ]
    activePathId := some "t"
    activePathNodes := ["b", "r", "t"]
    request := none, response := none, history := [], bodyHistory := [], vars := [] }

/-- Scenario D: `https://api.github.com` → `/users/` → `octocat` → GET. -/
def githubStore : Store :=
  { nodes :=
      [ ⟨"b", ⟨BlockType.baseUrl, "https://api.github.com", none, none, none, none⟩⟩
      , ⟨"r1", ⟨BlockType.resource, "/users/", none, none, none, none⟩⟩
      , ⟨"r2", ⟨BlockType.resource, "octocat", none, none, none, none⟩⟩
      , ⟨"t", ⟨BlockType.method, "", some HttpMethod.GET, none, none, none⟩⟩ ]
    edges := [ ⟨"e1", "b", "r1"⟩, ⟨"e2", "r1", "r2"⟩, ⟨"e3", "r2", "t"⟩ ]
    activePathId := some "t"
    activePathNodes := ["b", "r1", "r2", "t"]
    request := none, response := none, history := [], bodyHistory := [], vars := [] }

/-- The node ids a walk can ever be called on below the target: edge
sources.  The visited set only ever grows inside these. -/
def srcFinset (edges : List Edge) : Finset String := (edges.map Edge.source).toFinset

/-- The number of edge sources not yet visited: the quantity the cycle
guard strictly decreases. -/
def unvisitedSrc (edges : List Edge) (st : TraceSt) : Nat :=
  (srcFinset edges \ st.visited.toFinset).card

/-- Scenario E graph: target `t` with two incoming edges, the cyclic
branch `c → t` (with `t → c` closing the cycle) listed first, and the
valid branch `b → r → t` second. -/
def cycNodes : List ApiBlock :=
  [ ⟨"b", ⟨BlockType.baseUrl, "http://x", none, none, none, none⟩⟩
  , ⟨"r", ⟨BlockType.resource, "res", none, none, none, none⟩⟩
  , ⟨"c", ⟨BlockType.resource, "cyc", none, none, none, none⟩⟩
  , ⟨"t", ⟨BlockType.method, "", some HttpMethod.GET, none, none, none⟩⟩ ]

/-- Scenario E edges (cyclic branch first, so the resolver must recover
from it). -/
def cycEdges : List Edge :=
  [ ⟨"e1", "c", "t"⟩, ⟨"e2", "t", "c"⟩, ⟨"e3", "r", "t"⟩, ⟨"e4", "b", "r"⟩ ]

/-- Graph with a dead branch tried first: `t`'s incoming edges are
`d → t` (resource `dead`, no further ancestors) and then the valid chain
`b → r → t` (base `http://h`, resource `good`). -/
def deadBranchStore : Store :=
  { nodes :=
      [ ⟨"b", ⟨BlockType.baseUrl, "http://h", none, none, none, none⟩⟩
      , ⟨"r", ⟨BlockType.resource, "good", none, none, none, none⟩⟩
      , ⟨"d", ⟨BlockType.resource, "dead", none, none, none, none⟩⟩
      , ⟨"t", ⟨BlockType.method, "", some HttpMethod.GET, none, none, none⟩⟩ ]
    edges := [ ⟨"e1", "d", "t"⟩, ⟨"e2", "r", "t"⟩, ⟨"e3", "b", "r"⟩ ]
    activePathId := some "t"
    activePathNodes := ["b", "r", "t"]
    request := none, response := none, history := [], bodyHistory := [], vars := [] }

/-- Backward reachability from the target along reversed edges: the ids
the backward walk can ever visit (an over-approximation). -/
inductive BReach (edges : List Edge) (t : String) : String → Prop where
  | refl : BReach edges t t
  | step (e : Edge) (m : String) : BReach edges t m → e ∈ edges → e.target = m →
      BReach edges t e.source

/-- The Active-Path Projection invariant: the stored `activePathNodes`
equals what `computeActivePathNodes` recomputes from the current state. -/
def ActivePathInv (s : Store) : Prop :=
  s.activePathNodes = computeActivePathNodes s.activePathId s.nodes s.edges

/-! ### Unfolding lemmas for the parameter-substitution scan -/

theorem substWord_nil (vars : List (String × String)) : substWord vars [] = [] := by
  simp [substWord]

theorem substWord_cons_ne (vars : List (String × String)) (c : Char) (l : List Char)
    (h : c ≠ '{') : substWord vars (c :: l) = c :: substWord vars l := by
  rw [substWord.eq_def]
  split <;> simp_all

theorem substWord_brace (vars : List (String × String)) (l r3 : List Char)
    (hd : l.dropWhile wordChar = '}' :: r3) (hw : l.takeWhile wordChar ≠ []) :
    substWord vars ('{' :: l) =
      paramReplacement vars (l.takeWhile wordChar) ++ substWord vars r3 := by
  rw [substWord.eq_def]
  split
  · simp_all
  · rename_i rest heq
    obtain ⟨rfl⟩ : rest = l := by simpa using heq.symm
    split
    · rename_i r3' heq2
      rw [hd] at heq2
      obtain ⟨rfl⟩ : r3' = r3 := by simpa using heq2.symm
      rw [if_neg hw]
      rfl
    · rename_i hno heq2
      rw [hd] at heq2
      exact (heq2 r3 rfl).elim
  · rename_i hne heq
    exact absurd (List.cons.injEq _ _ _ _ ▸ heq).1.symm hne

theorem substWord_brace_empty_word (vars : List (String × String)) (l r3 : List Char)
    (hd : l.dropWhile wordChar = '}' :: r3) (hw : l.takeWhile wordChar = []) :
    substWord vars ('{' :: l) = '{' :: substWord vars l := by
  rw [substWord.eq_def]
  split
  · simp_all
  · rename_i rest heq
    obtain ⟨rfl⟩ : rest = l := by simpa using heq.symm
    split
    · rw [if_pos hw]
    · rfl
  · rename_i hne heq
    exact absurd (List.cons.injEq _ _ _ _ ▸ heq).1.symm hne

theorem substWord_brace_no_close (vars : List (String × String)) (l : List Char)
    (hd : ∀ r3, l.dropWhile wordChar ≠ '}' :: r3) :
    substWord vars ('{' :: l) = '{' :: substWord vars l := by
  rw [substWord.eq_def]
  split
  · simp_all
  · rename_i rest heq
    obtain ⟨rfl⟩ : rest = l := by simpa using heq.symm
    split
    · rename_i r3' heq2
      exact (hd r3' heq2).elim
    · rfl
  · rename_i hne heq
    exact absurd (List.cons.injEq _ _ _ _ ▸ heq).1.symm hne

/-- A scanned prefix containing no `{` is copied verbatim. -/
theorem substWord_append_no_brace (vars : List (String × String)) (pre l : List Char)
    (h : '{' ∉ pre) : substWord vars (pre ++ l) = pre ++ substWord vars l := by
  induction pre with
  | nil => rfl
  | cons c pre ih =>
    have hc : c ≠ '{' := fun hc => h (hc ▸ List.mem_cons_self c pre)
    have hpre : '{' ∉ pre := fun hm => h (List.mem_cons_of_mem c hm)
    rw [List.cons_append, substWord_cons_ne vars c _ hc, ih hpre]
    rfl

/-- Splitting `w ++ '}' :: suf` at the first non-word character when `w`
is all word characters. -/
theorem word_append_split (w suf : List Char) (hwc : ∀ c ∈ w, wordChar c = true) :
    (w ++ '}' :: suf).takeWhile wordChar = w ∧
    (w ++ '}' :: suf).dropWhile wordChar = '}' :: suf := by
  induction w with
  | nil =>
    constructor <;> simp [List.takeWhile_cons, List.dropWhile_cons, wordChar]
  | cons a w ih =>
    have ha : wordChar a = true := hwc a (List.mem_cons_self a w)
    have ih' := ih (fun c hc => hwc c (List.mem_cons_of_mem a hc))
    constructor <;>
      simp [List.takeWhile_cons, List.dropWhile_cons, ha, ih'.1, ih'.2]

theorem lookupVar_filter_self (vars : List (String × String)) (k : String) :
    lookupVar (vars.filter (fun p => !(p.1 == k))) k = none := by
  induction vars with
  | nil => rfl
  | cons p vars ih =>
    cases hp : (p.1 == k)
    · simpa [lookupVar, List.filter_cons, hp, List.find?] using ih
    · simpa [lookupVar, List.filter_cons, hp, List.find?] using ih

theorem lookupVar_filter_ne (vars : List (String × String)) (k k' : String)
    (h : k' ≠ k) :
    lookupVar (vars.filter (fun p => !(p.1 == k))) k' = lookupVar vars k' := by
  induction vars with
  | nil => rfl
  | cons p vars ih =>
    cases hp : (p.1 == k)
    · cases hp' : (p.1 == k')
      · simpa [lookupVar, List.filter_cons, hp, hp', List.find?] using ih
      · simp [lookupVar, List.filter_cons, hp, hp', List.find?]
    · have hk : p.1 = k := by simpa using hp
      have hp' : (p.1 == k') = false := by
        rw [beq_eq_false_iff_ne, hk]
        exact fun hc => h hc.symm
      simpa [lookupVar, List.filter_cons, hp, hp', List.find?] using ih

/-- One `{word}` occurrence (non-empty word of word characters, scanned
prefix `pre` free of `{`) is rewritten to its replacement text, and the
scan continues on the suffix. -/
theorem substWord_occ (vars : List (String × String)) (pre w suf : List Char)
    (hpre : '{' ∉ pre) (hw : w ≠ []) (hwc : ∀ c ∈ w, wordChar c = true) :
    substWord vars (pre ++ '{' :: (w ++ '}' :: suf)) =
      pre ++ paramReplacement vars w ++ substWord vars suf := by
  have hsplit := word_append_split w suf hwc
  have htw : (w ++ '}' :: suf).takeWhile wordChar ≠ [] := by
    rw [hsplit.1]; exact hw
  have hbody := substWord_brace vars (w ++ '}' :: suf) suf hsplit.2 htw
  rw [hsplit.1] at hbody
  rw [substWord_append_no_brace vars pre _ hpre, hbody, List.append_assoc]

/-- C6: during URL computation every `{word}` occurrence in a resource
segment is replaced by the (truthy) value bound to `word` in the variable
table, an unbound placeholder is left intact as the literal `{word}`, and
in particular `{postId}` becomes `42` under `postId ↦ "42"` and stays
`{postId}` under the empty table.  `pre` is the already-scanned text
before the occurrence (no `{` left in it), `suf` the remaining text, which
the scan processes recursively. -/
theorem subst_replaces_bound_keeps_unbound
    (vars : List (String × String)) (pre w suf : List Char)
    (hpre : '{' ∉ pre) (hw : w ≠ []) (hwc : ∀ c ∈ w, wordChar c = true) :
    (∀ v, lookupVar vars (String.mk w) = some v → v ≠ "" →
      substWord vars (pre ++ '{' :: (w ++ '}' :: suf)) =
        pre ++ v.data ++ substWord vars suf) ∧
    (lookupVar vars (String.mk w) = none →
      substWord vars (pre ++ '{' :: (w ++ '}' :: suf)) =
        pre ++ ('{' :: (w ++ ['}'])) ++ substWord vars suf) ∧
    substituteValue [("postId", "42")] "{postId}" = "42" ∧
    substituteValue [] "{postId}" = "{postId}" := by
  have hdata : ("{postId}" : String).data = [] ++ '{' :: ("postId".data ++ '}' :: []) := by
    decide
  refine ⟨?_, ?_, ?_, ?_⟩
  · intro v hv hvne
    rw [substWord_occ vars pre w suf hpre hw hwc, paramReplacement, hv]
    simp [hvne]
  · intro hv
    rw [substWord_occ vars pre w suf hpre hw hwc, paramReplacement, hv]
  · have h := substWord_occ [("postId", "42")] [] "postId".data []
      (by decide) (by decide) (by decide)
    rw [substWord_nil] at h
    rw [substituteValue, if_pos (by decide), hdata, h]
    decide
  · have h := substWord_occ [] [] "postId".data [] (by decide) (by decide) (by decide)
    rw [substWord_nil] at h
    rw [substituteValue, if_pos (by decide), hdata, h]
    decide

/-- Witness for `subst_replaces_bound_keeps_unbound` at
`pre = ""`, `w = "postId"`, `suf = ""`, table `postId ↦ "42"`. -/
theorem subst_replaces_bound_keeps_unbound_witness :
    substWord [("postId", "42")] ([] ++ '{' :: ("postId".data ++ '}' :: [])) =
      [] ++ "42".data ++ substWord [("postId", "42")] [] :=
  (subst_replaces_bound_keeps_unbound [("postId", "42")] [] "postId".data []
    (by decide) (by decide) (by decide)).1 "42" (by decide) (by decide)

/-- C9: a parameter bound to the empty string is treated exactly as if it
were unbound — substitution over any input is unchanged when all bindings
of that key are removed — and in particular the literal placeholder
survives in the output instead of being replaced by the empty string. -/
theorem empty_binding_treated_as_unbound
    (vars : List (String × String)) (k : String)
    (hk : lookupVar vars k = some "") (l : List Char) :
    substWord vars l = substWord (vars.filter (fun p => !(p.1 == k))) l ∧
    substituteValue [("postId", "")] "{postId}" = "{postId}" := by
  constructor
  · induction l using substWord.induct vars with
    | case1 => rw [substWord_nil, substWord_nil]
    | case2 rest r3 hd htw ih =>
      rw [substWord_brace_empty_word vars rest r3 hd htw,
          substWord_brace_empty_word _ rest r3 hd htw, ih]
    | case3 rest r3 hd htw ih =>
      rw [substWord_brace vars rest r3 hd htw, substWord_brace _ rest r3 hd htw, ih]
      congr 1
      by_cases hkey : String.mk (rest.takeWhile wordChar) = k
      · rw [paramReplacement, paramReplacement, hkey, hk, lookupVar_filter_self]
        simp
      · rw [paramReplacement, paramReplacement, lookupVar_filter_ne vars k _ hkey]
    | case4 rest hd ih =>
      rw [substWord_brace_no_close vars rest hd, substWord_brace_no_close _ rest hd, ih]
    | case5 c rest hc ih =>
      have hc' : c ≠ '{' := fun h => hc h
      rw [substWord_cons_ne vars c rest hc', substWord_cons_ne _ c rest hc', ih]
  · have h := substWord_occ [("postId", "")] [] "postId".data []
      (by decide) (by decide) (by decide)
    rw [substWord_nil] at h
    rw [substituteValue, if_pos (by decide),
        show ("{postId}" : String).data = [] ++ '{' :: ("postId".data ++ '}' :: []) from
          by decide, h]
    decide

/-- Witness for `empty_binding_treated_as_unbound` at table
`postId ↦ ""` and input `{postId}`. -/
theorem empty_binding_treated_as_unbound_witness :
    (substWord [("postId", "")] "{postId}".data =
      substWord ([("postId", "")].filter (fun p => !(p.1 == "postId"))) "{postId}".data) ∧
    substituteValue [("postId", "")] "{postId}" = "{postId}" :=
  empty_binding_treated_as_unbound [("postId", "")] "postId" (by decide) "{postId}".data

/-! ### The slash-collapse regex -/



theorem collapseSlashes_nil : collapseSlashes [] = [] := by simp [collapseSlashes]

theorem collapseSlashes_ds (c : Char) (rest : List Char) :
    collapseSlashes (c :: '/' :: '/' :: rest) =
      if c = ':' then c :: collapseSlashes ('/' :: '/' :: rest)
      else c :: '/' :: collapseSlashes (rest.dropWhile (fun d => d = '/')) := by
  rw [collapseSlashes.eq_def]
  rfl

theorem collapseSlashes_other (c : Char) (rest : List Char) (h : startsDS rest = false) :
    collapseSlashes (c :: rest) = c :: collapseSlashes rest := by
  rw [collapseSlashes.eq_def]
  split
  · rename_i c' rest' heq
    obtain ⟨rfl, rfl⟩ : c' = c ∧ '/' :: '/' :: rest' = rest := by simpa using heq.symm
    simp [startsDS] at h
  · rename_i hno heq
    rename_i c' rest'
    obtain ⟨rfl, rfl⟩ : c' = c ∧ rest' = rest := by simpa using heq.symm
    rfl
  · simp_all

/-- `startsDS rest = false` when `rest` is not of the shape `'/'::'/'::_`. -/
theorem startsDS_false_of_no (rest : List Char)
    (hno : ∀ r1 : List Char, rest = '/' :: '/' :: r1 → False) :
    startsDS rest = false := by
  cases rest with
  | nil => rfl
  | cons b Y =>
    cases Y with
    | nil => rfl
    | cons c2 Y2 =>
      rw [startsDS]
      by_cases hb : b = '/'
      · by_cases hc2 : c2 = '/'
        · subst hb; subst hc2
          exact (hno Y2 rfl).elim
        · simp [hc2]
      · simp [hb]

theorem collapseSlashes_head? (l : List Char) :
    (collapseSlashes l).head? = l.head? := by
  induction l using collapseSlashes.induct with
  | case1 rest ih => rw [collapseSlashes_ds]; simp
  | case2 c rest hc ih => rw [collapseSlashes_ds, if_neg hc]; rfl
  | case3 c rest hno ih => rw [collapseSlashes_other c rest (startsDS_false_of_no rest hno)]; rfl
  | case4 => rw [collapseSlashes_nil]

/-- The head of what `dropWhile p` leaves does not satisfy `p`. -/
theorem dropWhile_head_not {α : Type} (p : α → Bool) (l : List α) (c : α)
    (h : (l.dropWhile p).head? = some c) : p c = false := by
  induction l with
  | nil => simp [List.dropWhile] at h
  | cons a l ih =>
    rw [List.dropWhile] at h
    cases hp : p a
    · rw [hp] at h
      simp at h
      rw [← h]
      exact hp
    · rw [hp] at h
      exact ih h

/-- `startsDS` only looks at the first two characters, which the collapse
keeps (it never creates a new leading double slash). -/
theorem startsDS_collapse (l : List Char) :
    startsDS (collapseSlashes l) = startsDS l := by
  cases l with
  | nil => rw [collapseSlashes_nil]
  | cons b Y =>
    cases Y with
    | nil => rw [collapseSlashes_other b [] rfl, collapseSlashes_nil]
    | cons y Y2 =>
      by_cases hds : ∃ r : List Char, y :: Y2 = '/' :: '/' :: r
      · obtain ⟨r, hr⟩ := hds
        obtain ⟨rfl, rfl⟩ : y = '/' ∧ Y2 = '/' :: r := by simpa using hr
        rw [collapseSlashes_ds]
        by_cases hb : b = ':'
        · subst hb
          rw [if_pos rfl]
          cases hX : collapseSlashes ('/' :: '/' :: r) with
          | nil => simp [startsDS]
          | cons z Z =>
            have hh := collapseSlashes_head? ('/' :: '/' :: r)
            rw [hX] at hh
            obtain rfl : z = '/' := by simpa using hh
            simp [startsDS]
        · rw [if_neg hb]
          simp [startsDS]
      · have hY : startsDS (y :: Y2) = false :=
          startsDS_false_of_no _ (fun r hr => hds ⟨r, hr⟩)
        rw [collapseSlashes_other b _ hY]
        have hh := collapseSlashes_head? (y :: Y2)
        cases hX : collapseSlashes (y :: Y2) with
        | nil => rw [hX] at hh; simp at hh
        | cons z Z =>
          rw [hX] at hh
          obtain rfl : z = y := by simpa using hh
          simp [startsDS]

/-- If a list's head is not a slash, no double slash starts at it or right
after a single slash prepended to it. -/
theorem startsDS_of_head_not_slash (Y : List Char)
    (h : ∀ d, Y.head? = some d → d ≠ '/') :
    startsDS ('/' :: Y) = false ∧ startsDS Y = false := by
  cases Y with
  | nil => exact ⟨rfl, rfl⟩
  | cons z Z =>
    have hz : z ≠ '/' := h z rfl
    constructor
    · simp [startsDS, hz]
    · cases Z with
      | nil => rfl
      | cons z2 Z2 => simp [startsDS, hz]

/-- After the collapse no further match of the collapse regex remains. -/
theorem collapseSlashes_no_bad (l : List Char) :
    hasBadRun (collapseSlashes l) = false := by
  induction l using collapseSlashes.induct with
  | case1 rest ih =>
    rw [collapseSlashes_ds, if_pos rfl]
    simp [hasBadRun, ih]
  | case2 c rest hc ih =>
    rw [collapseSlashes_ds, if_neg hc]
    have hY : ∀ d, (collapseSlashes (rest.dropWhile (fun d => d = '/'))).head? = some d →
        d ≠ '/' := by
      intro d hd
      rw [collapseSlashes_head?] at hd
      have := dropWhile_head_not (fun d => d = '/') rest d hd
      simpa using this
    have hsd := startsDS_of_head_not_slash _ hY
    simp [hasBadRun, hsd.1, hsd.2, ih]
  | case3 c rest hno ih =>
    have hds := startsDS_false_of_no rest hno
    rw [collapseSlashes_other c rest hds]
    simp [hasBadRun, startsDS_collapse, hds, ih]
  | case4 => rw [collapseSlashes_nil]; rfl

/-- An input with no match of the collapse regex is left unchanged. -/
theorem collapseSlashes_fix (l : List Char) (h : hasBadRun l = false) :
    collapseSlashes l = l := by
  induction l using collapseSlashes.induct with
  | case1 rest ih =>
    simp only [hasBadRun] at h
    simp only [beq_self_eq_true, Bool.not_true, Bool.false_and, Bool.false_or] at h
    rw [collapseSlashes_ds, if_pos rfl, ih h]
  | case2 c rest hc ih =>
    simp [hasBadRun, startsDS] at h
    exact absurd h.1 hc
  | case3 c rest hno ih =>
    have hds := startsDS_false_of_no rest hno
    simp only [hasBadRun, hds, Bool.and_false, Bool.false_or] at h
    rw [collapseSlashes_other c rest hds, ih h]
  | case4 => rw [collapseSlashes_nil]



/-- C7 counterexample: the composed URL `//a/b` keeps a run of two
slashes that is not part of a `://` scheme separator — the collapse regex
needs a preceding non-colon character, so a run at the start of the
string is never collapsed, contradicting "collapses every run … that is
not part of a scheme separator". -/
theorem collapse_leading_run_not_collapsed :
    getComputedUrl protoRelStore = some "//a/b" ∧ ("//a/b" : String) ≠ "/a/b" := by
  constructor
  · simp only [protoRelStore, getComputedUrl]
    simp [traceBackU, tryEdges, substituteValue, isParamTest, closeSearch, lineTerm, composeUrl]
    rw [show String.intercalate "/" ["//a", "b"] = "//a/b" from rfl]
    rw [show ("//a/b" : String).data = ['/', '/', 'a', '/', 'b'] from rfl]
    simp [collapseSlashes, List.dropWhile]
  · decide

/-- C7 (amended): the composer collapses every run of two or more
consecutive slashes that is *immediately preceded by a non-colon
character* into a single slash — a run at the start of the string, or one
immediately after a colon (as in `://`), is left intact: after the
collapse no preceded run remains (first conjunct), inputs without such a
run are unchanged (second conjunct), an inner run collapses to one slash
(third conjunct), and Scenario D composes to
`https://api.github.com/users/octocat` with the scheme's `//` intact
(fourth conjunct). -/
theorem collapse_regex_amended :
    (∀ l : List Char, hasBadRun (collapseSlashes l) = false) ∧
    (∀ l : List Char, hasBadRun l = false → collapseSlashes l = l) ∧
    String.mk (collapseSlashes "a////b".data) = "a/b" ∧
    getComputedUrl githubStore = some "https://api.github.com/users/octocat" := by
  refine ⟨collapseSlashes_no_bad, collapseSlashes_fix, ?_, ?_⟩
  · rw [show ("a////b" : String).data = ['a', '/', '/', '/', '/', 'b'] from rfl]
    simp [collapseSlashes, List.dropWhile]
  · simp only [githubStore, getComputedUrl]
    simp [traceBackU, tryEdges, substituteValue, isParamTest, closeSearch, lineTerm, composeUrl]
    rw [show String.intercalate "/" ["https://api.github.com", "/users/", "octocat"] =
      "https://api.github.com//users//octocat" from rfl]
    rw [show ("https://api.github.com//users//octocat" : String).data =
      "https://api.github.com//users//octocat".data from rfl]
    simp [collapseSlashes, List.dropWhile]

/-- Witness for `collapse_regex_amended`'s conditional conjunct at the
clean input `a:/b`. -/
theorem collapse_regex_amended_witness :
    collapseSlashes "a:/b".data = "a:/b".data :=
  collapse_regex_amended.2.1 "a:/b".data (by decide)

/-! ### Termination of the backward walks -/



theorem unvisitedSrc_mono (edges : List Edge) (st st' : TraceSt)
    (h : st.visited ⊆ st'.visited) : unvisitedSrc edges st' ≤ unvisitedSrc edges st := by
  apply Finset.card_le_card
  apply Finset.sdiff_subset_sdiff (Finset.Subset.refl _)
  intro a ha
  rw [List.mem_toFinset] at ha ⊢
  exact h ha

theorem unvisitedSrc_insert_lt (edges : List Edge) (st : TraceSt) (n : String)
    (hn : n ∈ edges.map Edge.source) (hv : n ∉ st.visited) :
    unvisitedSrc edges ⟨n :: st.visited, st.path⟩ < unvisitedSrc edges st := by
  apply Finset.card_lt_card
  constructor
  · apply Finset.sdiff_subset_sdiff (Finset.Subset.refl _)
    intro a ha
    rw [List.mem_toFinset] at ha ⊢
    exact List.mem_cons_of_mem n ha
  · intro hsub
    have hmem : n ∈ srcFinset edges \ st.visited.toFinset := by
      rw [Finset.mem_sdiff, srcFinset, List.mem_toFinset, List.mem_toFinset]
      exact ⟨hn, hv⟩
    have := hsub hmem
    rw [Finset.mem_sdiff, List.mem_toFinset] at this
    exact this.2 (List.mem_cons_self n st.visited)

/-- The state's visited set only grows along the loop over incoming
edges, provided the walk itself only grows it. -/
theorem tryEdges_visited_sub (tb : String → TraceSt → Option (Bool × TraceSt))
    (htb : ∀ s st b st', tb s st = some (b, st') → st.visited ⊆ st'.visited) :
    ∀ l st b st', tryEdges tb l st = some (b, st') → st.visited ⊆ st'.visited := by
  intro l
  induction l with
  | nil =>
    intro st b st' h
    rw [tryEdges] at h
    obtain ⟨_, rfl⟩ : false = b ∧ st = st' := by simpa using h
    exact List.Subset.refl _
  | cons e rest ih =>
    intro st b st' h
    rw [tryEdges] at h
    rcases hte : tb e.source st with _ | ⟨b1, st1⟩
    · rw [hte] at h; exact absurd h (by simp)
    · rw [hte] at h
      cases b1 with
      | true =>
        obtain ⟨_, rfl⟩ : true = b ∧ st1 = st' := by simpa using h
        exact htb e.source st true st1 hte
      | false =>
        exact List.Subset.trans (htb e.source st false st1 hte) (ih st1 b st' h)

/-- The walk's visited set only grows. -/
theorem traceBack_visited_sub (nodes : List ApiBlock) (edges : List Edge) :
    ∀ f n st b st', traceBack nodes edges f n st = some (b, st') →
      st.visited ⊆ st'.visited := by
  intro f
  induction f with
  | zero => intro n st b st' h; exact absurd h (by rw [traceBack]; simp)
  | succ f ih =>
    intro n st b st' h
    rw [traceBack] at h
    by_cases hv : n ∈ st.visited
    · rw [if_pos hv] at h
      obtain ⟨_, rfl⟩ : false = b ∧ st = st' := by simpa using h
      exact List.Subset.refl _
    · rw [if_neg hv] at h
      have hgrow : st.visited ⊆ n :: st.visited :=
        fun a ha => List.mem_cons_of_mem n ha
      rcases hf : nodes.find? (fun nd => nd.id == n) with _ | node
      · rw [hf] at h
        obtain ⟨_, rfl⟩ : false = b ∧ (⟨n :: st.visited, st.path⟩ : TraceSt) = st' := by
          simpa using h
        exact hgrow
      · rw [hf] at h
        dsimp only at h
        by_cases hb : node.data.type = BlockType.baseUrl
        · rw [if_pos hb] at h
          obtain ⟨_, rfl⟩ : true = b ∧ (⟨n :: st.visited, n :: st.path⟩ : TraceSt) = st' := by
            simpa using h
          exact hgrow
        · rw [if_neg hb] at h
          rcases hte : tryEdges (fun s st' => traceBack nodes edges f s st')
              (edges.filter (fun e => e.target == n))
              ⟨n :: st.visited, n :: st.path⟩ with _ | ⟨b3, st3⟩
          · rw [hte] at h; exact absurd h (by simp)
          · rw [hte] at h
            have hsub : (⟨n :: st.visited, n :: st.path⟩ : TraceSt).visited ⊆ st3.visited :=
              tryEdges_visited_sub _ (fun s stx bx stx' hx => ih s stx bx stx' hx)
                _ _ b3 st3 hte
            cases b3 with
            | true =>
              obtain ⟨_, rfl⟩ : true = b ∧ st3 = st' := by simpa using h
              exact List.Subset.trans hgrow hsub
            | false =>
              obtain ⟨_, rfl⟩ : false = b ∧
                  (⟨st3.visited, st3.path.tail⟩ : TraceSt) = st' := by simpa using h
              exact List.Subset.trans hgrow hsub

/-- Fuel monotonicity for the edge loop, given it for the walk. -/
theorem tryEdges_mono (tb1 tb2 : String → TraceSt → Option (Bool × TraceSt))
    (htb : ∀ s st r, tb1 s st = some r → tb2 s st = some r) :
    ∀ l st r, tryEdges tb1 l st = some r → tryEdges tb2 l st = some r := by
  intro l
  induction l with
  | nil => intro st r h; rw [tryEdges] at h ⊢; exact h
  | cons e rest ih =>
    intro st r h
    rw [tryEdges] at h ⊢
    rcases hte : tb1 e.source st with _ | ⟨b1, st1⟩
    · rw [hte] at h; exact absurd h (by simp)
    · rw [hte] at h
      rw [htb e.source st (b1, st1) hte]
      cases b1 with
      | true => exact h
      | false => exact ih st1 r h

/-- A successful walk stays successful with more fuel, with the same
result. -/
theorem traceBack_mono (nodes : List ApiBlock) (edges : List Edge) :
    ∀ f f', f ≤ f' → ∀ n st r, traceBack nodes edges f n st = some r →
      traceBack nodes edges f' n st = some r := by
  intro f
  induction f with
  | zero => intro f' _ n st r h; exact absurd h (by rw [traceBack]; simp)
  | succ f ih =>
    intro f' hf' n st r h
    obtain ⟨f2, rfl⟩ : ∃ f2, f' = f2 + 1 := ⟨f' - 1, by omega⟩
    have hf2 : f ≤ f2 := by omega
    rw [traceBack] at h ⊢
    by_cases hv : n ∈ st.visited
    · rw [if_pos hv] at h ⊢; exact h
    · rw [if_neg hv] at h ⊢
      rcases hfnd : nodes.find? (fun nd => nd.id == n) with _ | node
      · rw [hfnd] at h ⊢; exact h
      · rw [hfnd] at h ⊢
        dsimp only at h ⊢
        by_cases hb : node.data.type = BlockType.baseUrl
        · rw [if_pos hb] at h ⊢; exact h
        · rw [if_neg hb] at h ⊢
          rcases hte : tryEdges (fun s st' => traceBack nodes edges f s st')
              (edges.filter (fun e => e.target == n))
              ⟨n :: st.visited, n :: st.path⟩ with _ | ⟨b3, st3⟩
          · rw [hte] at h; exact absurd h (by simp)
          · rw [hte] at h
            have hte2 := tryEdges_mono _ _
              (fun s stx rx hx => ih f2 hf2 s stx rx hx) _ _ _ hte
            rw [hte2]
            exact h

/-- Fuel sufficiency: with fuel exceeding the number of unvisited edge
sources (plus slack for the initial target, which need not be an edge
source), the walk never exhausts its fuel.  This is the termination
argument: each recursive entry permanently marks a new node visited. -/
theorem traceBack_suff (nodes : List ApiBlock) (edges : List Edge) :
    ∀ f n st,
      (unvisitedSrc edges st + 2 ≤ f ∨
        (n ∈ edges.map Edge.source ∧ unvisitedSrc edges st + 1 ≤ f)) →
      traceBack nodes edges f n st ≠ none := by
  intro f
  induction f with
  | zero =>
    intro n st hcond
    rcases hcond with h | ⟨_, h⟩ <;> omega
  | succ f ih =>
    intro n st hcond
    rw [traceBack]
    by_cases hv : n ∈ st.visited
    · rw [if_pos hv]; simp
    · rw [if_neg hv]
      rcases hfnd : nodes.find? (fun nd => nd.id == n) with _ | node
      · rw [hfnd]; simp
      · rw [hfnd]
        dsimp only
        by_cases hb : node.data.type = BlockType.baseUrl
        · rw [if_pos hb]; simp
        · rw [if_neg hb]
          have hE : ∀ l st', (∀ e ∈ l, e.source ∈ edges.map Edge.source) →
              unvisitedSrc edges st' + 1 ≤ f →
              tryEdges (fun s stx => traceBack nodes edges f s stx) l st' ≠ none := by
            intro l
            induction l with
            | nil => intro st' _ _; rw [tryEdges]; simp
            | cons e rest ihl =>
              intro st' hsrc hfuel
              rw [tryEdges]
              have hT := ih e.source st'
                (Or.inr ⟨hsrc e (List.mem_cons_self e rest), hfuel⟩)
              rcases h1 : traceBack nodes edges f e.source st' with _ | ⟨b1, st1⟩
              · exact absurd h1 hT
              · cases b1 with
                | true => simp
                | false =>
                  have hsub := traceBack_visited_sub nodes edges f e.source st' false st1 h1
                  have hle := unvisitedSrc_mono edges st' st1 hsub
                  exact ihl st1 (fun e2 he2 => hsrc e2 (List.mem_cons_of_mem e he2))
                    (by omega)
          have hfuel2 : unvisitedSrc edges ⟨n :: st.visited, n :: st.path⟩ + 1 ≤ f := by
            rcases hcond with h2 | ⟨hnsrc, h1⟩
            · have : unvisitedSrc edges ⟨n :: st.visited, n :: st.path⟩ ≤
                  unvisitedSrc edges st :=
                unvisitedSrc_mono edges st _ (fun a ha => List.mem_cons_of_mem n ha)
              omega
            · have := unvisitedSrc_insert_lt edges st n hnsrc hv
              have heq : unvisitedSrc edges ⟨n :: st.visited, n :: st.path⟩ =
                  unvisitedSrc edges ⟨n :: st.visited, st.path⟩ := rfl
              omega
          have hne := hE (edges.filter (fun e => e.target == n))
            ⟨n :: st.visited, n :: st.path⟩
            (fun e he => List.mem_map_of_mem Edge.source (List.mem_of_mem_filter he))
            hfuel2
          split
          · rename_i heq
            exact absurd heq hne
          · simp
          · simp

theorem unvisitedSrc_le_length (edges : List Edge) (st : TraceSt) :
    unvisitedSrc edges st ≤ edges.length := by
  calc unvisitedSrc edges st ≤ (srcFinset edges).card :=
        Finset.card_le_card (Finset.sdiff_subset)
    _ ≤ (edges.map Edge.source).length := List.toFinset_card_le _
    _ = edges.length := List.length_map _ _

/-- Any fuel of at least `edges.length + 2` yields the same, defined,
result: the walk of `computeActivePathNodes` terminates on every graph. -/
theorem traceBack_fuel_sufficient (nodes : List ApiBlock) (edges : List Edge)
    (f : Nat) (n : String) (st : TraceSt) (hf : edges.length + 2 ≤ f) :
    traceBack nodes edges f n st = traceBack nodes edges (edges.length + 2) n st ∧
    traceBack nodes edges f n st ≠ none := by
  have hmeas := unvisitedSrc_le_length edges st
  have h1 := traceBack_suff nodes edges (edges.length + 2) n st (Or.inl (by omega))
  rcases hr : traceBack nodes edges (edges.length + 2) n st with _ | r
  · exact absurd hr h1
  · have h2 := traceBack_mono nodes edges (edges.length + 2) f hf n st r hr
    rw [h2]
    simp

/-- `traceBackU`'s visited set only grows (same argument as for
`traceBack`: the two walks differ only in what they push on `path`). -/
theorem traceBackU_visited_sub (nodes : List ApiBlock) (edges : List Edge)
    (vars : List (String × String)) :
    ∀ f n st b st', traceBackU nodes edges vars f n st = some (b, st') →
      st.visited ⊆ st'.visited := by
  intro f
  induction f with
  | zero => intro n st b st' h; exact absurd h (by rw [traceBackU]; simp)
  | succ f ih =>
    intro n st b st' h
    rw [traceBackU] at h
    by_cases hv : n ∈ st.visited
    · rw [if_pos hv] at h
      obtain ⟨_, rfl⟩ : false = b ∧ st = st' := by simpa using h
      exact List.Subset.refl _
    · rw [if_neg hv] at h
      have hgrow : st.visited ⊆ n :: st.visited :=
        fun a ha => List.mem_cons_of_mem n ha
      rcases hf : nodes.find? (fun nd => nd.id == n) with _ | node
      · rw [hf] at h
        obtain ⟨_, rfl⟩ : false = b ∧ (⟨n :: st.visited, st.path⟩ : TraceSt) = st' := by
          simpa using h
        exact hgrow
      · rw [hf] at h
        dsimp only at h
        by_cases hb : node.data.type = BlockType.baseUrl
        · rw [if_pos hb] at h
          obtain ⟨_, rfl⟩ : true = b ∧
              (⟨n :: st.visited, node.data.value :: st.path⟩ : TraceSt) = st' := by
            simpa using h
          exact hgrow
        · rw [if_neg hb] at h
          have hsub := tryEdges_visited_sub _
            (fun s stx bx stx' hx => ih s stx bx stx' hx) _ _ b st' h
          exact List.Subset.trans hgrow hsub

/-- Fuel monotonicity for `traceBackU`. -/
theorem traceBackU_mono (nodes : List ApiBlock) (edges : List Edge)
    (vars : List (String × String)) :
    ∀ f f', f ≤ f' → ∀ n st r, traceBackU nodes edges vars f n st = some r →
      traceBackU nodes edges vars f' n st = some r := by
  intro f
  induction f with
  | zero => intro f' _ n st r h; exact absurd h (by rw [traceBackU]; simp)
  | succ f ih =>
    intro f' hf' n st r h
    obtain ⟨f2, rfl⟩ : ∃ f2, f' = f2 + 1 := ⟨f' - 1, by omega⟩
    have hf2 : f ≤ f2 := by omega
    rw [traceBackU] at h ⊢
    by_cases hv : n ∈ st.visited
    · rw [if_pos hv] at h ⊢; exact h
    · rw [if_neg hv] at h ⊢
      rcases hfnd : nodes.find? (fun nd => nd.id == n) with _ | node
      · rw [hfnd] at h ⊢; exact h
      · rw [hfnd] at h ⊢
        dsimp only at h ⊢
        by_cases hb : node.data.type = BlockType.baseUrl
        · rw [if_pos hb] at h ⊢; exact h
        · rw [if_neg hb] at h ⊢
          exact tryEdges_mono _ _ (fun s stx rx hx => ih f2 hf2 s stx rx hx) _ _ r h

/-- Fuel sufficiency for `traceBackU`. -/
theorem traceBackU_suff (nodes : List ApiBlock) (edges : List Edge)
    (vars : List (String × String)) :
    ∀ f n st,
      (unvisitedSrc edges st + 2 ≤ f ∨
        (n ∈ edges.map Edge.source ∧ unvisitedSrc edges st + 1 ≤ f)) →
      traceBackU nodes edges vars f n st ≠ none := by
  intro f
  induction f with
  | zero =>
    intro n st hcond
    rcases hcond with h | ⟨_, h⟩ <;> omega
  | succ f ih =>
    intro n st hcond
    rw [traceBackU]
    by_cases hv : n ∈ st.visited
    · rw [if_pos hv]; simp
    · rw [if_neg hv]
      rcases hfnd : nodes.find? (fun nd => nd.id == n) with _ | node
      · rw [hfnd]; simp
      · rw [hfnd]
        dsimp only
        by_cases hb : node.data.type = BlockType.baseUrl
        · rw [if_pos hb]; simp
        · rw [if_neg hb]
          have hE : ∀ l st', (∀ e ∈ l, e.source ∈ edges.map Edge.source) →
              unvisitedSrc edges st' + 1 ≤ f →
              tryEdges (fun s stx => traceBackU nodes edges vars f s stx) l st' ≠ none := by
            intro l
            induction l with
            | nil => intro st' _ _; rw [tryEdges]; simp
            | cons e rest ihl =>
              intro st' hsrc hfuel
              rw [tryEdges]
              have hT := ih e.source st'
                (Or.inr ⟨hsrc e (List.mem_cons_self e rest), hfuel⟩)
              rcases h1 : traceBackU nodes edges vars f e.source st' with _ | ⟨b1, st1⟩
              · exact absurd h1 hT
              · cases b1 with
                | true => simp
                | false =>
                  have hsub := traceBackU_visited_sub nodes edges vars f e.source st'
                    false st1 h1
                  have hle := unvisitedSrc_mono edges st' st1 hsub
                  exact ihl st1 (fun e2 he2 => hsrc e2 (List.mem_cons_of_mem e he2))
                    (by omega)
          have hfuel2 : unvisitedSrc edges
              ⟨n :: st.visited,
               if node.data.type = BlockType.resource then
                 substituteValue vars node.data.value :: st.path
               else st.path⟩ + 1 ≤ f := by
            have heq : unvisitedSrc edges
                ⟨n :: st.visited,
                 if node.data.type = BlockType.resource then
                   substituteValue vars node.data.value :: st.path
                 else st.path⟩ =
                unvisitedSrc edges ⟨n :: st.visited, st.path⟩ := rfl
            rcases hcond with h2 | ⟨hnsrc, h1⟩
            · have : unvisitedSrc edges ⟨n :: st.visited, st.path⟩ ≤
                  unvisitedSrc edges st :=
                unvisitedSrc_mono edges st _ (fun a ha => List.mem_cons_of_mem n ha)
              omega
            · have := unvisitedSrc_insert_lt edges st n hnsrc hv
              omega
          exact hE (edges.filter (fun e => e.target == n)) _
            (fun e he => List.mem_map_of_mem Edge.source (List.mem_of_mem_filter he))
            hfuel2

/-- Any fuel of at least `edges.length + 2` yields the same, defined,
result for `getComputedUrl`'s walk. -/
theorem traceBackU_fuel_sufficient (nodes : List ApiBlock) (edges : List Edge)
    (vars : List (String × String)) (f : Nat) (n : String) (st : TraceSt)
    (hf : edges.length + 2 ≤ f) :
    traceBackU nodes edges vars f n st =
      traceBackU nodes edges vars (edges.length + 2) n st ∧
    traceBackU nodes edges vars f n st ≠ none := by
  have hmeas := unvisitedSrc_le_length edges st
  have h1 := traceBackU_suff nodes edges vars (edges.length + 2) n st (Or.inl (by omega))
  rcases hr : traceBackU nodes edges vars (edges.length + 2) n st with _ | r
  · exact absurd hr h1
  · have h2 := traceBackU_mono nodes edges vars (edges.length + 2) f hf n st r hr
    rw [h2]
    simp



/-- C3: on every graph — cyclic ones included — both backward walks are
fuel-insensitive from `edges.length + 2` on and never exhaust the fuel:
the visited set lets each node id be entered at most once, so
`computeActivePathNodes` and `getComputedUrl` terminate. -/
theorem resolution_terminates (nodes : List ApiBlock) (edges : List Edge)
    (vars : List (String × String)) (tid : String) (f : Nat)
    (hf : edges.length + 2 ≤ f) :
    (traceBack nodes edges f tid ⟨[], []⟩ =
      traceBack nodes edges (edges.length + 2) tid ⟨[], []⟩) ∧
    traceBack nodes edges f tid ⟨[], []⟩ ≠ none ∧
    (traceBackU nodes edges vars f tid ⟨[], []⟩ =
      traceBackU nodes edges vars (edges.length + 2) tid ⟨[], []⟩) ∧
    traceBackU nodes edges vars f tid ⟨[], []⟩ ≠ none := by
  obtain ⟨h1, h2⟩ := traceBack_fuel_sufficient nodes edges f tid ⟨[], []⟩ hf
  obtain ⟨h3, h4⟩ := traceBackU_fuel_sufficient nodes edges vars f tid ⟨[], []⟩ hf
  exact ⟨h1, h2, h3, h4⟩

/-- Witness for `resolution_terminates` on the cyclic Scenario E graph
with fuel 10. -/
theorem resolution_terminates_witness :
    (traceBack cycNodes cycEdges 10 "t" ⟨[], []⟩ =
      traceBack cycNodes cycEdges (cycEdges.length + 2) "t" ⟨[], []⟩) ∧
    traceBack cycNodes cycEdges 10 "t" ⟨[], []⟩ ≠ none ∧
    (traceBackU cycNodes cycEdges [] 10 "t" ⟨[], []⟩ =
      traceBackU cycNodes cycEdges [] (cycEdges.length + 2) "t" ⟨[], []⟩) ∧
    traceBackU cycNodes cycEdges [] 10 "t" ⟨[], []⟩ ≠ none :=
  resolution_terminates cycNodes cycEdges [] "t" 10 (by decide)

/-- C4 (Scenario E): with the cyclic branch tried first, resolution
returns exactly the valid BaseUrl-to-target chain `b, r, t` and no node
of the cyclic branch appears. -/
theorem cycle_branch_ignored :
    computeActivePathNodes (some "t") cycNodes cycEdges = ["b", "r", "t"] ∧
    "c" ∉ computeActivePathNodes (some "t") cycNodes cycEdges := by
  constructor <;> decide


/-- C1 failing input: `traceBackwards` in `getComputedUrl` pushes a
resource value *before* trying the node's incoming edges but never undoes
the push when every incoming edge fails (`computeActivePathNodes` does:
`pathNodeIds.shift()`), so the dead branch's value `dead` — a node that is
not on the resolved path `b, r, t` — leaks into the composed URL. -/
theorem dead_branch_value_leaks_into_url :
    getComputedUrl deadBranchStore = some "http://h/good/dead" ∧
    computeActivePathNodes (some "t") deadBranchStore.nodes deadBranchStore.edges =
      ["b", "r", "t"] ∧
    ¬ ∃ n, n ∈ computeActivePathNodes (some "t") deadBranchStore.nodes
        deadBranchStore.edges ∧ n = "d" := by
  refine ⟨?_, by decide, by decide⟩
  simp only [deadBranchStore, getComputedUrl]
  simp [traceBackU, tryEdges, substituteValue, isParamTest, closeSearch, lineTerm, composeUrl]
  rw [show String.intercalate "/" ["http://h", "good", "dead"] = "http://h/good/dead" from rfl]
  rw [show ("http://h/good/dead" : String).data =
    "http://h/good/dead".data from rfl]
  simp [collapseSlashes, List.dropWhile]


/-- If no backward-reachable node is a BaseUrl node, the
`computeActivePathNodes` walk fails and restores the path it was given. -/
theorem traceBack_no_base (nodes : List ApiBlock) (edges : List Edge) (tid : String)
    (hnb : ∀ n, BReach edges tid n → ∀ b, b ∈ nodes → b.id = n →
      b.data.type ≠ BlockType.baseUrl) :
    ∀ f n st r, BReach edges tid n → traceBack nodes edges f n st = some r →
      r.1 = false ∧ r.2.path = st.path := by
  intro f
  induction f with
  | zero => intro n st r _ h; exact absurd h (by rw [traceBack]; simp)
  | succ f ih =>
    intro n st r hbr h
    rw [traceBack] at h
    by_cases hv : n ∈ st.visited
    · rw [if_pos hv] at h
      obtain rfl : ((false, st) : Bool × TraceSt) = r := by simpa using h
      exact ⟨rfl, rfl⟩
    · rw [if_neg hv] at h
      rcases hfnd : nodes.find? (fun nd => nd.id == n) with _ | node
      · rw [hfnd] at h
        obtain rfl : ((false, ⟨n :: st.visited, st.path⟩) : Bool × TraceSt) = r := by
          simpa using h
        exact ⟨rfl, rfl⟩
      · rw [hfnd] at h
        dsimp only at h
        have hid : node.id = n := by
          have := List.find?_some hfnd
          simpa using this
        have hmem : node ∈ nodes := List.mem_of_find?_eq_some hfnd
        have hb : node.data.type ≠ BlockType.baseUrl := hnb n hbr node hmem hid
        rw [if_neg hb] at h
        have hE : ∀ l st' r', (∀ e ∈ l, BReach edges tid e.source) →
            tryEdges (fun s stx => traceBack nodes edges f s stx) l st' = some r' →
            r'.1 = false ∧ r'.2.path = st'.path := by
          intro l
          induction l with
          | nil =>
            intro st' r' _ h'
            rw [tryEdges] at h'
            obtain rfl : ((false, st') : Bool × TraceSt) = r' := by simpa using h'
            exact ⟨rfl, rfl⟩
          | cons e rest ihl =>
            intro st' r' hbrl h'
            rw [tryEdges] at h'
            rcases h1 : traceBack nodes edges f e.source st' with _ | ⟨b1, st1⟩
            · rw [h1] at h'; exact absurd h' (by simp)
            · rw [h1] at h'
              have hT := ih e.source st' (b1, st1) (hbrl e (List.mem_cons_self e rest)) h1
              obtain rfl : b1 = false := hT.1
              have := ihl st1 r' (fun e2 he2 => hbrl e2 (List.mem_cons_of_mem e he2)) h'
              exact ⟨this.1, this.2.trans hT.2⟩
        rcases hte : tryEdges (fun s stx => traceBack nodes edges f s stx)
            (edges.filter (fun e => e.target == n))
            ⟨n :: st.visited, n :: st.path⟩ with _ | ⟨b3, st3⟩
        · rw [hte] at h; exact absurd h (by simp)
        · rw [hte] at h
          have hbrE : ∀ e ∈ edges.filter (fun e => e.target == n),
              BReach edges tid e.source := by
            intro e he
            have hmeme : e ∈ edges := List.mem_of_mem_filter he
            have htgt : e.target = n := by
              have := List.of_mem_filter he
              simpa using this
            exact BReach.step e n hbr hmeme htgt
          have hEr := hE _ _ (b3, st3) hbrE hte
          obtain rfl : b3 = false := hEr.1
          obtain rfl : ((false, ⟨st3.visited, st3.path.tail⟩) : Bool × TraceSt) = r := by
            simpa using h
          refine ⟨rfl, ?_⟩
          show st3.path.tail = st.path
          rw [hEr.2]
          rfl

/-- Same failure statement for `getComputedUrl`'s walk (its path is not
restored, but the success flag is false). -/
theorem traceBackU_no_base (nodes : List ApiBlock) (edges : List Edge)
    (vars : List (String × String)) (tid : String)
    (hnb : ∀ n, BReach edges tid n → ∀ b, b ∈ nodes → b.id = n →
      b.data.type ≠ BlockType.baseUrl) :
    ∀ f n st r, BReach edges tid n → traceBackU nodes edges vars f n st = some r →
      r.1 = false := by
  intro f
  induction f with
  | zero => intro n st r _ h; exact absurd h (by rw [traceBackU]; simp)
  | succ f ih =>
    intro n st r hbr h
    rw [traceBackU] at h
    by_cases hv : n ∈ st.visited
    · rw [if_pos hv] at h
      obtain rfl : ((false, st) : Bool × TraceSt) = r := by simpa using h
      rfl
    · rw [if_neg hv] at h
      rcases hfnd : nodes.find? (fun nd => nd.id == n) with _ | node
      · rw [hfnd] at h
        obtain rfl : ((false, ⟨n :: st.visited, st.path⟩) : Bool × TraceSt) = r := by
          simpa using h
        rfl
      · rw [hfnd] at h
        dsimp only at h
        have hid : node.id = n := by
          have := List.find?_some hfnd
          simpa using this
        have hmem : node ∈ nodes := List.mem_of_find?_eq_some hfnd
        have hb : node.data.type ≠ BlockType.baseUrl := hnb n hbr node hmem hid
        rw [if_neg hb] at h
        have hE : ∀ l st' r', (∀ e ∈ l, BReach edges tid e.source) →
            tryEdges (fun s stx => traceBackU nodes edges vars f s stx) l st' = some r' →
            r'.1 = false := by
          intro l
          induction l with
          | nil =>
            intro st' r' _ h'
            rw [tryEdges] at h'
            obtain rfl : ((false, st') : Bool × TraceSt) = r' := by simpa using h'
            rfl
          | cons e rest ihl =>
            intro st' r' hbrl h'
            rw [tryEdges] at h'
            rcases h1 : traceBackU nodes edges vars f e.source st' with _ | ⟨b1, st1⟩
            · rw [h1] at h'; exact absurd h' (by simp)
            · rw [h1] at h'
              have hT := ih e.source st' (b1, st1) (hbrl e (List.mem_cons_self e rest)) h1
              obtain rfl : b1 = false := hT
              exact ihl st1 r' (fun e2 he2 => hbrl e2 (List.mem_cons_of_mem e he2)) h'
        have hbrE : ∀ e ∈ edges.filter (fun e => e.target == n),
            BReach edges tid e.source := by
          intro e he
          have hmeme : e ∈ edges := List.mem_of_mem_filter he
          have htgt : e.target = n := by
            have := List.of_mem_filter he
            simpa using this
          exact BReach.step e n hbr hmeme htgt
        exact hE _ _ r hbrE h

/-- C5: when no BaseUrl node is reachable by the backward walk from the
target (unknown target ids and cyclic graphs without a BaseUrl ancestor
included), `computeActivePathNodes` returns the empty sequence and
`getComputedUrl` returns `null` — both are total functions, so no
exception is possible. -/
theorem unresolvable_path_empty_and_null (nodes : List ApiBlock) (edges : List Edge)
    (tid : String)
    (hnb : ∀ n, BReach edges tid n → ∀ b, b ∈ nodes → b.id = n →
      b.data.type ≠ BlockType.baseUrl) :
    computeActivePathNodes (some tid) nodes edges = [] ∧
    ∀ s : Store, s.nodes = nodes → s.edges = edges → s.activePathId = some tid →
      getComputedUrl s = none := by
  constructor
  · rw [computeActivePathNodes]
    rcases hr : traceBack nodes edges (edges.length + 2) tid ⟨[], []⟩ with _ | ⟨b, st⟩
    · rfl
    · have := traceBack_no_base nodes edges tid hnb (edges.length + 2) tid ⟨[], []⟩
        (b, st) BReach.refl hr
      exact this.2
  · intro s hn he ha
    rw [getComputedUrl, ha]
    dsimp only
    rcases hfnd : s.nodes.find? (fun n => n.id == tid) with _ | node
    · rw [hfnd]
    · rw [hfnd]
      dsimp only
      rcases hr : traceBackU s.nodes s.edges s.vars (s.edges.length + 2) tid ⟨[], []⟩
        with _ | ⟨found, st⟩
      · rfl
      · have hfalse : found = false := by
          subst hn; subst he
          exact traceBackU_no_base s.nodes s.edges s.vars tid hnb (s.edges.length + 2)
            tid ⟨[], []⟩ (found, st) BReach.refl hr
        subst hfalse
        simp

/-- Witness for `unresolvable_path_empty_and_null`: a lone method node
with no edges (so the only backward-reachable id is the target itself). -/
theorem unresolvable_path_empty_and_null_witness :
    computeActivePathNodes (some "t")
      [⟨"t", ⟨BlockType.method, "", some HttpMethod.GET, none, none, none⟩⟩] [] = [] ∧
    ∀ s : Store,
      s.nodes = [⟨"t", ⟨BlockType.method, "", some HttpMethod.GET, none, none, none⟩⟩] →
      s.edges = [] → s.activePathId = some "t" → getComputedUrl s = none :=
  unresolvable_path_empty_and_null
    [⟨"t", ⟨BlockType.method, "", some HttpMethod.GET, none, none, none⟩⟩] [] "t"
    (by
      intro n hbr
      induction hbr with
      | refl =>
        intro b hb hid
        obtain rfl : b = ⟨"t", ⟨BlockType.method, "", some HttpMethod.GET, none, none, none⟩⟩ :=
          by simpa using hb
        decide
      | step e m hbr he htgt ih => exact absurd he (by simp))

/-! ### The projection invariant -/

theorem tryEdges_congr_on (tb1 tb2 : String → TraceSt → Option (Bool × TraceSt))
    (l : List Edge) (h : ∀ e ∈ l, ∀ st', tb1 e.source st' = tb2 e.source st') :
    ∀ st, tryEdges tb1 l st = tryEdges tb2 l st := by
  induction l with
  | nil => intro st; rw [tryEdges, tryEdges]
  | cons e rest ih =>
    intro st
    rw [tryEdges, tryEdges, h e (List.mem_cons_self e rest) st]
    rcases tb2 e.source st with _ | ⟨b1, st1⟩
    · rfl
    · cases b1 with
      | true => rfl
      | false => exact ih (fun e2 he2 => h e2 (List.mem_cons_of_mem e he2)) st1

/-- The walk only reads, for each id in a set `Q` closed under taking
sources of incoming edges, whether a node with that id exists and its
type, and the filtered incoming-edge lists.  Two graphs agreeing on those
give identical walks. -/
theorem traceBack_congr (nodes1 nodes2 : List ApiBlock) (edges1 edges2 : List Edge)
    (Q : String → Prop)
    (hnodes : ∀ m, Q m →
      (nodes1.find? (fun nd => nd.id == m)).map (fun nd => nd.data.type) =
      (nodes2.find? (fun nd => nd.id == m)).map (fun nd => nd.data.type))
    (hedges : ∀ m, Q m → edges1.filter (fun e => e.target == m) =
      edges2.filter (fun e => e.target == m))
    (hclosed : ∀ m, Q m → ∀ e ∈ edges1.filter (fun e => e.target == m), Q e.source) :
    ∀ f n st, Q n → traceBack nodes1 edges1 f n st = traceBack nodes2 edges2 f n st := by
  intro f
  induction f with
  | zero => intro n st _; rw [traceBack, traceBack]
  | succ f ih =>
    intro n st hQ
    rw [traceBack, traceBack]
    by_cases hv : n ∈ st.visited
    · rw [if_pos hv, if_pos hv]
    · rw [if_neg hv, if_neg hv]
      have hm := hnodes n hQ
      rcases hf1 : nodes1.find? (fun nd => nd.id == n) with _ | node1
      · rw [hf1] at hm
        have hf2 : nodes2.find? (fun nd => nd.id == n) = none := by
          simpa [Option.map_eq_none'] using hm.symm
        rw [hf1, hf2]
      · rw [hf1] at hm
        rcases hf2 : nodes2.find? (fun nd => nd.id == n) with _ | node2
        · rw [hf2] at hm; exact absurd hm (by simp)
        · rw [hf2] at hm
          have htype : node1.data.type = node2.data.type := by simpa using hm
          rw [hf1, hf2]
          dsimp only
          rw [htype, hedges n hQ]
          by_cases hb : node2.data.type = BlockType.baseUrl
          · rw [if_pos hb, if_pos hb]
          · rw [if_neg hb, if_neg hb]
            have hcong := tryEdges_congr_on
              (fun s stx => traceBack nodes1 edges1 f s stx)
              (fun s stx => traceBack nodes2 edges2 f s stx)
              (edges2.filter (fun e => e.target == n))
              (fun e he stx => by
                have he1 : e ∈ edges1.filter (fun e => e.target == n) := by
                  rw [hedges n hQ]; exact he
                exact ih e.source stx (hclosed n hQ e he1))
              ⟨n :: st.visited, n :: st.path⟩
            rw [hcong]

theorem find?_append_single (nodes : List ApiBlock) (x : ApiBlock) (m : String)
    (h : x.id ≠ m) :
    (nodes ++ [x]).find? (fun nd => nd.id == m) = nodes.find? (fun nd => nd.id == m) := by
  induction nodes with
  | nil =>
    simp [List.find?, beq_eq_false_iff_ne.mpr h]
  | cons a nodes ih =>
    cases ha : (a.id == m) <;> simp [List.find?, ha, ih]

/-- Appending a node whose id is neither the target nor any edge source
does not change the resolved path. -/
theorem computeActivePathNodes_append_node (apid : Option String)
    (nodes : List ApiBlock) (edges : List Edge) (x : ApiBlock)
    (hfresh_t : ∀ tid, apid = some tid → x.id ≠ tid)
    (hfresh_s : x.id ∉ edges.map Edge.source) :
    computeActivePathNodes apid (nodes ++ [x]) edges =
      computeActivePathNodes apid nodes edges := by
  cases apid with
  | none => rfl
  | some tid =>
    rw [computeActivePathNodes, computeActivePathNodes]
    rw [traceBack_congr (nodes ++ [x]) nodes edges edges (fun m => x.id ≠ m)
      (fun m hQ => by rw [find?_append_single nodes x m hQ])
      (fun m _ => rfl)
      (fun m _ e he hc =>
        hfresh_s (hc ▸ List.mem_map_of_mem Edge.source (List.mem_of_mem_filter he)))
      (edges.length + 2) tid ⟨[], []⟩ (hfresh_t tid rfl)]

/-- Rewriting node payloads while keeping every id and type does not
change the resolved path. -/
theorem computeActivePathNodes_map_payload (apid : Option String)
    (nodes : List ApiBlock) (edges : List Edge) (g : ApiBlock → ApiBlock)
    (hg : ∀ nd, (g nd).id = nd.id ∧ (g nd).data.type = nd.data.type) :
    computeActivePathNodes apid (nodes.map g) edges =
      computeActivePathNodes apid nodes edges := by
  cases apid with
  | none => rfl
  | some tid =>
    rw [computeActivePathNodes, computeActivePathNodes]
    rw [traceBack_congr (nodes.map g) nodes edges edges (fun _ => True)
      (fun m _ => by
        rw [List.find?_map]
        have hp : ((fun nd => nd.id == m) ∘ g) = (fun nd => nd.id == m) := by
          funext nd
          simp [Function.comp, (hg nd).1]
        rw [hp, Option.map_map]
        have hmap : ((fun nd => nd.data.type) ∘ g) = (fun nd => nd.data.type) := by
          funext nd
          simp [Function.comp, (hg nd).2]
        rw [hmap])
      (fun m _ => rfl)
      (fun m _ e he => trivial)
      (edges.length + 2) tid ⟨[], []⟩ trivial]

/-- Appending an edge whose target is fresh (not the target id, no edge's
source, not its own source) does not change the resolved path. -/
theorem computeActivePathNodes_append_edge (apid : Option String)
    (nodes : List ApiBlock) (edges : List Edge) (e : Edge)
    (hfresh_t : ∀ tid, apid = some tid → e.target ≠ tid)
    (hfresh_s : e.target ∉ edges.map Edge.source) :
    computeActivePathNodes apid nodes (edges ++ [e]) =
      computeActivePathNodes apid nodes edges := by
  cases apid with
  | none => rfl
  | some tid =>
    have hfilter : ∀ m, e.target ≠ m →
        (edges ++ [e]).filter (fun e2 => e2.target == m) =
        edges.filter (fun e2 => e2.target == m) := by
      intro m hm
      rw [List.filter_append]
      simp [List.filter, beq_eq_false_iff_ne.mpr hm]
    have hcongr := traceBack_congr nodes nodes (edges ++ [e]) edges
      (fun m => e.target ≠ m)
      (fun m _ => rfl)
      (fun m hQ => hfilter m hQ)
      (fun m hQ e2 he2 hc => by
        have he2' : e2 ∈ edges.filter (fun e2 => e2.target == m) := by
          rw [← hfilter m hQ]; exact he2
        exact hfresh_s (hc ▸ List.mem_map_of_mem Edge.source (List.mem_of_mem_filter he2')))
    rw [computeActivePathNodes, computeActivePathNodes]
    rw [hcongr ((edges ++ [e]).length + 2) tid ⟨[], []⟩ (hfresh_t tid rfl)]
    have hlen : edges.length + 2 ≤ (edges ++ [e]).length + 2 := by
      simp
    rw [(traceBack_fuel_sufficient nodes edges ((edges ++ [e]).length + 2) tid
      ⟨[], []⟩ hlen).1]


/-- C2: every store operation that can change nodes, edges or the active
selection leaves `activePathNodes` equal to the recomputed backward path
resolution on the post-operation state.  The operations that recompute
(`onNodesChange`, `onEdgesChange`, `onConnect`, `setActivePath`) preserve
it unconditionally; the ones that do not recompute (`addNode`,
`updateNodeValue`, `updateNodeBodyFields`, `updateNodeHeaders`,
`ensureRequestNode`) preserve it because their changes cannot affect the
walk — for the two that create nodes/edges this needs the `nanoid()`
freshness assumptions stated. -/
theorem projection_stays_derived (s : Store) (hInv : ActivePathInv s) :
    (∀ newNodes, ActivePathInv (onNodesChange newNodes s)) ∧
    (∀ newEdges, ActivePathInv (onEdgesChange newEdges s)) ∧
    (∀ newEdges, ActivePathInv (onConnect newEdges s)) ∧
    (∀ nodeId, ActivePathInv (setActivePath nodeId s)) ∧
    (∀ newId type value method,
      (∀ tid, s.activePathId = some tid → newId ≠ tid) →
      newId ∉ s.edges.map Edge.source →
      ActivePathInv (addNode newId type value method s)) ∧
    (∀ id value, ActivePathInv (updateNodeValue id value s)) ∧
    (∀ id bodyFields, ActivePathInv (updateNodeBodyFields id bodyFields s)) ∧
    (∀ id headers, ActivePathInv (updateNodeHeaders id headers s)) ∧
    (∀ freshNodeId freshEdgeId methodNodeId,
      (∀ tid, s.activePathId = some tid → freshNodeId ≠ tid) →
      freshNodeId ∉ s.edges.map Edge.source →
      freshNodeId ≠ methodNodeId →
      ActivePathInv (ensureRequestNode freshNodeId freshEdgeId methodNodeId s)) := by
  refine ⟨fun newNodes => rfl, fun newEdges => rfl, fun newEdges => rfl, fun nodeId => rfl,
    ?_, ?_, ?_, ?_, ?_⟩
  · intro newId type value method hft hfs
    show s.activePathNodes =
      computeActivePathNodes s.activePathId
        (s.nodes ++ [⟨newId, ⟨type, value, method, none, none, none⟩⟩]) s.edges
    rw [computeActivePathNodes_append_node s.activePathId s.nodes s.edges _ hft hfs]
    exact hInv
  · intro id value
    show s.activePathNodes = computeActivePathNodes s.activePathId
      (s.nodes.map (fun node => if node.id = id then
        { node with data := { node.data with value := value } } else node)) s.edges
    rw [computeActivePathNodes_map_payload s.activePathId s.nodes s.edges _
      (fun nd => by by_cases h : nd.id = id <;> simp [h])]
    exact hInv
  · intro id bodyFields
    show s.activePathNodes = computeActivePathNodes s.activePathId
      (s.nodes.map (fun node => if node.id = id then
        { node with data := { node.data with bodyFields := some bodyFields } } else node))
      s.edges
    rw [computeActivePathNodes_map_payload s.activePathId s.nodes s.edges _
      (fun nd => by by_cases h : nd.id = id <;> simp [h])]
    exact hInv
  · intro id headers
    show s.activePathNodes = computeActivePathNodes s.activePathId
      (s.nodes.map (fun node => if node.id = id then
        { node with data := { node.data with headers := some headers } } else node)) s.edges
    rw [computeActivePathNodes_map_payload s.activePathId s.nodes s.edges _
      (fun nd => by by_cases h : nd.id = id <;> simp [h])]
    exact hInv
  · intro freshNodeId freshEdgeId methodNodeId hft hfs hfm
    rw [ensureRequestNode]
    rcases h1 : s.edges.find? (fun e =>
        e.source == methodNodeId &&
        (s.nodes.find? (fun n => n.id == e.target && n.data.type == BlockType.request)).isSome)
      with _ | _
    · rw [h1]
      rcases h2 : s.nodes.find? (fun n => n.id == methodNodeId) with _ | methodNode
      · rw [h2]
        exact hInv
      · rw [h2]
        dsimp only
        by_cases hm : methodNode.data.type ≠ BlockType.method
        · rw [if_pos hm]; exact hInv
        · rw [if_neg hm]
          have h3 := computeActivePathNodes_append_node s.activePathId s.nodes
            (s.edges ++ [(⟨freshEdgeId, methodNodeId, freshNodeId⟩ : Edge)])
            (⟨freshNodeId, ⟨BlockType.request, "", none, none,
              some [⟨"Content-Type", "application/json"⟩], none⟩⟩ : ApiBlock) hft
            (by
              intro hmem
              rw [List.map_append] at hmem
              rcases List.mem_append.mp hmem with ha | hb
              · exact hfs ha
              · exact hfm (by simpa using hb))
          have h4 := computeActivePathNodes_append_edge s.activePathId s.nodes s.edges
            (⟨freshEdgeId, methodNodeId, freshNodeId⟩ : Edge) hft hfs
          exact hInv.trans (h4.symm.trans h3.symm)
    · rw [h1]
      exact hInv

/-- Witness for `projection_stays_derived`: the default store (its stored
projection is empty with no active selection) and `addNode` with a fresh
id. -/
theorem projection_stays_derived_witness :
    ActivePathInv (addNode "fresh-id" BlockType.resource "users" none createDefaultState) :=
  (projection_stays_derived createDefaultState rfl).2.2.2.2.1 "fresh-id"
    BlockType.resource "users" none (by intro tid h; cases h) (by decide)

/-! ### Request assembly (MethodBlock handleSend) -/

theorem find?_setKey_ne (obj : List (String × String)) (k v k' : String) (h : k' ≠ k) :
    (obj.map (fun q => if q.1 == k then (k, v) else q)).find? (fun q => q.1 == k') =
      obj.find? (fun q => q.1 == k') := by
  induction obj with
  | nil => rfl
  | cons q obj ih =>
    rw [List.map_cons]
    by_cases hq : q.1 = k
    · have hfq : (if (q.1 == k) = true then (k, v) else q) = (k, v) := by
        simp [hq]
      have h2 : (q.1 == k') = false := by
        rw [beq_eq_false_iff_ne, hq]; exact fun hc => h hc.symm
      have h3 : ((k : String) == k') = false := by
        rw [beq_eq_false_iff_ne]; exact fun hc => h hc.symm
      rw [hfq]
      simp only [List.find?, h2, h3]
      exact ih
    · have h1 : (q.1 == k) = false := by rwa [beq_eq_false_iff_ne]
      have hfq : (if (q.1 == k) = true then (k, v) else q) = q := by
        simp [h1]
      rw [hfq]
      cases h2 : (q.1 == k') with
      | true => simp only [List.find?, h2]
      | false =>
        simp only [List.find?, h2]
        exact ih

theorem find?_setKey_self (obj : List (String × String)) (k v : String)
    (h : obj.any (fun p => p.1 == k) = true) :
    (obj.map (fun q => if q.1 == k then (k, v) else q)).find? (fun q => q.1 == k) =
      some (k, v) := by
  induction obj with
  | nil => simp at h
  | cons q obj ih =>
    rw [List.map_cons]
    by_cases hq : q.1 = k
    · have hfq : (if (q.1 == k) = true then (k, v) else q) = (k, v) := by
        simp [hq]
      rw [hfq]
      simp only [List.find?, beq_self_eq_true]
    · have h1 : (q.1 == k) = false := by rwa [beq_eq_false_iff_ne]
      have hfq : (if (q.1 == k) = true then (k, v) else q) = q := by
        simp [h1]
      have h' : obj.any (fun p => p.1 == k) = true := by
        rw [List.any_cons, h1] at h
        simpa using h
      rw [hfq]
      simp only [List.find?, h1]
      exact ih h' 

/-- `obj[k] = v` then `obj[k']`: the fresh value at `k`, unchanged
elsewhere. -/
theorem lookupVar_recordSet (obj : List (String × String)) (k v k' : String) :
    lookupVar (recordSet obj k v) k' = if k' = k then some v else lookupVar obj k' := by
  rw [recordSet]
  by_cases hany : obj.any (fun p => p.1 == k) = true
  · rw [if_pos hany]
    by_cases hk : k' = k
    · subst hk
      rw [lookupVar, find?_setKey_self obj k' v hany]
      simp
    · rw [if_neg hk, lookupVar, lookupVar, find?_setKey_ne obj k v k' hk]
  · rw [if_neg hany]
    have hnone : obj.find? (fun p => p.1 == k) = none := by
      rw [List.find?_eq_none]
      intro x hx hpx
      exact hany (List.any_eq_true.mpr ⟨x, hx, hpx⟩)
    by_cases hk : k' = k
    · subst hk
      rw [lookupVar, List.find?_append, hnone]
      simp [List.find?]
    · rw [if_neg hk, lookupVar, lookupVar, List.find?_append]
      have h2 : ([(k, v)].find? (fun p => p.1 == k') : Option (String × String)) = none := by
        simp [List.find?, beq_eq_false_iff_ne.mpr (fun hc => hk hc.symm)]
      rw [h2]
      simp

/-- The body fold binds exactly the non-empty keys occurring in the
fields. -/
theorem sendBodyObj_keys (bodyFields : List BodyField) (k : String) :
    (lookupVar (sendBodyObj bodyFields) k).isSome ↔
      (k ≠ "" ∧ ∃ f ∈ bodyFields, f.key = k) := by
  have hgen : ∀ (fields : List BodyField) (acc : List (String × String)),
      (lookupVar (fields.foldl
        (fun acc f => if f.key ≠ "" then recordSet acc f.key f.value else acc) acc) k).isSome ↔
      ((k ≠ "" ∧ ∃ f ∈ fields, f.key = k) ∨ (lookupVar acc k).isSome) := by
    intro fields
    induction fields with
    | nil => intro acc; simp
    | cons f fields ih =>
      intro acc
      rw [List.foldl_cons]
      by_cases hf : f.key = ""
      · rw [if_neg (by simpa using hf), ih]
        constructor
        · rintro (⟨hk, g, hg, hgk⟩ | hacc)
          · exact Or.inl ⟨hk, g, List.mem_cons_of_mem f hg, hgk⟩
          · exact Or.inr hacc
        · rintro (⟨hk, g, hg, hgk⟩ | hacc)
          · rcases List.mem_cons.mp hg with hg | hg
            · rw [hg, hf] at hgk
              exact absurd hgk.symm hk
            · exact Or.inl ⟨hk, g, hg, hgk⟩
          · exact Or.inr hacc
      · rw [if_pos (by simpa using hf), ih]
        by_cases hk : k = f.key
        · subst hk
          rw [lookupVar_recordSet, if_pos rfl]
          simp only [Option.isSome_some, or_true, true_iff]
          exact Or.inl ⟨hf, f, List.mem_cons_self f fields, rfl⟩
        · rw [lookupVar_recordSet, if_neg hk]
          constructor
          · rintro (⟨hk2, g, hg, hgk⟩ | hacc)
            · exact Or.inl ⟨hk2, g, List.mem_cons_of_mem f hg, hgk⟩
            · exact Or.inr hacc
          · rintro (⟨hk2, g, hg, hgk⟩ | hacc)
            · rcases List.mem_cons.mp hg with hg | hg
              · rw [hg] at hgk
                exact absurd hgk.symm hk
              · exact Or.inl ⟨hk2, g, hg, hgk⟩
            · exact Or.inr hacc
  rw [sendBodyObj, hgen bodyFields []]
  simp [lookupVar]

/-- C8 counterexample: with method POST and the single body field
`("", "x")` — no field has a non-empty key — `handleSend` still attaches a
body (`bodyFields.length > 0` is the code's test), namely the empty
mapping, contradicting "includes a body exactly when … at least one body
field has a non-empty key". -/
theorem body_attached_despite_empty_keys :
    (sendConfig HttpMethod.POST "http://u" [] "" [⟨"", "x"⟩]).data = some [] ∧
    ([(⟨"", "x"⟩ : BodyField)].all (fun f => f.key == "")) = true := by
  constructor <;> decide

/-- C8 (amended): the body is attached exactly when the method is one of
POST, PUT, PATCH *and the body-field list is non-empty* (even if every
key is empty, in which case the body is the empty mapping); when
attached, the ordered fields fold into a flat mapping binding exactly the
non-empty keys — empty-key fields are dropped — and empty-value fields
are retained with the empty string (Scenario B's `email`/`password`
fields are kept, bound to `""`). -/
theorem send_body_amended (method : HttpMethod) (url : String)
    (headers : List HeaderField) (bearerToken : String) (bodyFields : List BodyField) :
    ((sendConfig method url headers bearerToken bodyFields).data =
      if hasBody method = true ∧ bodyFields ≠ [] then some (sendBodyObj bodyFields)
      else none) ∧
    (hasBody method = true ↔
      (method = HttpMethod.POST ∨ method = HttpMethod.PUT ∨ method = HttpMethod.PATCH)) ∧
    (∀ k, (lookupVar (sendBodyObj bodyFields) k).isSome ↔
      (k ≠ "" ∧ ∃ f ∈ bodyFields, f.key = k)) ∧
    sendBodyObj [⟨"email", ""⟩, ⟨"password", ""⟩] = [("email", ""), ("password", "")] := by
  refine ⟨?_, ?_, sendBodyObj_keys bodyFields, by decide⟩
  · rw [sendConfig]
    by_cases hmb : hasBody method = true
    · cases bodyFields with
      | nil => simp [hmb]
      | cons f fields => simp [hmb]
    · simp [hmb]
  · cases method <;> simp [hasBody]

/-! ### Bounded histories -/

theorem applyOp_history_bounded (s : Store) (op : StoreOp)
    (h10 : s.history.length ≤ 10) (h50 : s.bodyHistory.length ≤ 50) :
    (applyOp s op).history.length ≤ 10 ∧ (applyOp s op).bodyHistory.length ≤ 50 := by
  cases op with
  | addNode a b c d => exact ⟨h10, h50⟩
  | onNodesChange a => exact ⟨h10, h50⟩
  | onEdgesChange a => exact ⟨h10, h50⟩
  | onConnect a => exact ⟨h10, h50⟩
  | updateNodeValue a b => exact ⟨h10, h50⟩
  | updateNodeBodyFields a b => exact ⟨h10, h50⟩
  | updateNodeHeaders a b => exact ⟨h10, h50⟩
  | ensureRequestNode a b c =>
    show ((ensureRequestNode a b c s).history.length ≤ 10 ∧
      (ensureRequestNode a b c s).bodyHistory.length ≤ 50)
    rw [ensureRequestNode]
    split
    · exact ⟨h10, h50⟩
    · split
      · exact ⟨h10, h50⟩
      · split
        · exact ⟨h10, h50⟩
        · exact ⟨h10, h50⟩
  | setActivePath a => exact ⟨h10, h50⟩
  | setRequest a => exact ⟨h10, h50⟩
  | setResponse resp url method newId ts =>
    show ((setResponse resp url method newId ts s).history.length ≤ 10 ∧
      (setResponse resp url method newId ts s).bodyHistory.length ≤ 50)
    rcases url with _ | u
    · exact ⟨h10, h50⟩
    · rcases method with _ | m
      · exact ⟨h10, h50⟩
      · simp only [setResponse]
        by_cases hu : u = ""
        · rw [if_pos hu]
          exact ⟨h10, h50⟩
        · rw [if_neg hu]
          refine ⟨?_, h50⟩
          show (List.take 10 _).length ≤ 10
          rw [List.length_take]
          omega
  | clearResponse => exact ⟨h10, h50⟩
  | clearHistory => exact ⟨by simp [applyOp, clearHistory], h50⟩
  | removeHistoryItem a =>
    refine ⟨?_, h50⟩
    show (s.history.filter _).length ≤ 10
    exact le_trans (List.length_filter_le _ _) h10
  | addBodyHistory newId ts m u fields =>
    show ((addBodyHistory newId ts m u fields s).history.length ≤ 10 ∧
      (addBodyHistory newId ts m u fields s).bodyHistory.length ≤ 50)
    rw [addBodyHistory]
    by_cases hf : fields.length = 0
    · rw [if_pos hf]; exact ⟨h10, h50⟩
    · rw [if_neg hf]
      refine ⟨h10, ?_⟩
      show (List.take 50 _).length ≤ 50
      rw [List.length_take]
      omega
  | removeBodyHistoryItem a =>
    refine ⟨h10, ?_⟩
    show (s.bodyHistory.filter _).length ≤ 50
    exact le_trans (List.length_filter_le _ _) h50
  | setVariable a b => exact ⟨h10, h50⟩
  | resetToDefault =>
    constructor
    · show createDefaultState.history.length ≤ 10
      decide
    · show createDefaultState.bodyHistory.length ≤ 50
      decide

/-- C10: `setResponse` with a (non-empty) url and a method prepends one
history item and truncates to the newest 10; `addBodyHistory` with a
non-empty field list prepends one item and truncates to the newest 50;
consequently, after any sequence of store operations starting from the
default state, `history.length ≤ 10` and `bodyHistory.length ≤ 50`. -/
theorem histories_bounded :
    (∀ (s : Store) (resp : ResponseState) (u : String) (m : HttpMethod)
        (newId : String) (ts : Nat), u ≠ "" →
      (setResponse resp (some u) (some m) newId ts s).history =
        List.take 10 (⟨resp, newId, u, m, ts⟩ :: s.history)) ∧
    (∀ (s : Store) (newId : String) (ts : Nat) (m : HttpMethod) (u : String)
        (fields : List BodyField), fields ≠ [] →
      (addBodyHistory newId ts m u fields s).bodyHistory =
        List.take 50 (⟨newId, m, u, fields.map (fun f => ⟨f.key, f.value⟩), ts⟩ ::
          s.bodyHistory)) ∧
    (∀ ops : List StoreOp,
      (ops.foldl applyOp createDefaultState).history.length ≤ 10 ∧
      (ops.foldl applyOp createDefaultState).bodyHistory.length ≤ 50) := by
  refine ⟨?_, ?_, ?_⟩
  · intro s resp u m newId ts hu
    simp only [setResponse]
    rw [if_neg hu]
  · intro s newId ts m u fields hf
    rw [addBodyHistory, if_neg (by simpa using hf)]
  · intro ops
    have hgen : ∀ (ops : List StoreOp) (s : Store),
        s.history.length ≤ 10 → s.bodyHistory.length ≤ 50 →
        (ops.foldl applyOp s).history.length ≤ 10 ∧
        (ops.foldl applyOp s).bodyHistory.length ≤ 50 := by
      intro ops
      induction ops with
      | nil => intro s h10 h50; exact ⟨h10, h50⟩
      | cons op ops ih =>
        intro s h10 h50
        rw [List.foldl_cons]
        obtain ⟨h10', h50'⟩ := applyOp_history_bounded s op h10 h50
        exact ih (applyOp s op) h10' h50'
    exact hgen ops createDefaultState (by decide) (by decide)

/-- Witness for `histories_bounded`: one `setResponse` on the default
store with url `http://localhost:3000/health` and method GET. -/
theorem histories_bounded_witness :
    (setResponse ⟨200, "OK", "{}", [], 5, 2⟩ (some "http://localhost:3000/health")
        (some HttpMethod.GET) "id1" 1 createDefaultState).history =
      List.take 10 (⟨⟨200, "OK", "{}", [], 5, 2⟩, "id1", "http://localhost:3000/health",
        HttpMethod.GET, 1⟩ :: createDefaultState.history) :=
  histories_bounded.1 createDefaultState ⟨200, "OK", "{}", [], 5, 2⟩
    "http://localhost:3000/health" HttpMethod.GET "id1" 1 (by decide)
